import Mathlib

/-!
Verification of the `proto` package (a protobuf-compatible binary codec
engine) against its natural-language specification.

The development has two layers.

The structural layer (`namespace Proto.Build`) embeds the code that is
visible in `src/proto/proto.go`: the `inlined` predicate, the `wireType`
constants, the `codecOf` kind dispatch with its `seen` registry, and the
copy-on-write codec cache (`loadCachedCodec`, `storeCachedCodec`,
`cachedCodecOf`).  Runtime types are embedded as an inductive `GoType`
mirroring the `reflect.Kind` universe that the dispatch inspects.

The semantic layer (`namespace Proto.Wire`) models the wire primitives and
composite codecs.  Their bodies are not part of `src/proto/proto.go` (only
their callers are), so they are modelled from the specification: varint /
fixed32 / fixed64 / varlen physical encodings, tag bytes
`(fieldNumber <<< 3) ||| wireTypeCode`, zero-value elision for struct
fields, representation inlining for pointer / map / single-field-struct
shapes, and the strict `Unmarshal` entry point from the source
(empty-buffer no-op, pointer-target requirement, trailing-byte check).
-/

namespace Proto

namespace Build

/-- Wire type constants, from the source:
`varint = 0`, `fixed64 = 1`, `varlen = 2`, `fixed32 = 5`. -/
inductive WireType where
  | varint
  | fixed64
  | varlen
  | fixed32
deriving DecidableEq, Repr

/-- The numeric code of each wire type, exactly the constants declared in
the source. -/
def WireType.code : WireType → Nat
  | .varint => 0
  | .fixed64 => 1
  | .varlen => 2
  | .fixed32 => 5

mutual

/-- Embedding of the `reflect.Kind` universe that `codecOf` dispatches on:
every kind mentioned by the source's switch plus representatives of the
kinds it leaves to the `panic` arm (`chan`, `func`, `iface`, sized
integers the source does not handle, ...). -/
inductive GoType where
  | bool
  | int
  | int8
  | int16
  | int32
  | int64
  | uint
  | uint8
  | uint16
  | uint32
  | uint64
  | float32
  | float64
  | string
  | chan
  | func
  | iface
  | array (elem : GoType) (size : Nat)
  | slice (elem : GoType)
  | struct (fields : GoFields)
  | ptr (elem : GoType)
  | map (key elem : GoType)
deriving DecidableEq, Repr

/-- The list of field types of a struct type (field order as declared). -/
inductive GoFields where
  | nil
  | cons (t : GoType) (rest : GoFields)
deriving DecidableEq, Repr

end

/-- `t.NumField()` for a struct's field list. -/
def GoFields.numFields : GoFields → Nat
  | .nil => 0
  | .cons _ rest => 1 + rest.numFields

/-- `inlined` from the source: pointer and map types inline; a struct
inlines when it has exactly one field whose type inlines; everything else
does not. -/
def inlined : GoType → Bool
  | .ptr _ => true
  | .map _ _ => true
  | .struct (.cons t .nil) => inlined t
  | _ => false

/-- An opaque token standing for a built `*codec`.  The claims about the
builder and the cache concern which types obtain a codec and how codecs
are registered and published, not the codec function bodies (which are not
part of the visible source), so codecs are represented by tokens recording
how they were composed. -/
inductive CodecTok where
  | boolC
  | intC
  | int32C
  | int64C
  | uintC
  | uint32C
  | uint64C
  | float32C
  | float64C
  | stringC
  | bytesC
  | byteArrayC (size : Nat)
  | structC (fields : List CodecTok)
  | pointerC (elem : CodecTok)
  | placeholder (t : GoType)

/-- A `map[reflect.Type]*codec`: Go map lookups yield the zero value
(`nil`) on a missing key, modelled by `Option`. -/
def TypeCodecMap : Type := GoType → Option CodecTok

/-- Go map update `m[t] = c`. -/
def TypeCodecMap.insert (m : TypeCodecMap) (t : GoType) (c : CodecTok) :
    TypeCodecMap :=
  fun u => if u = t then some c else m u

/-- The empty map (`make(map[reflect.Type]*codec)`). -/
def TypeCodecMap.empty : TypeCodecMap := fun _ => none

mutual

/-- `codecOf` from the source.  The registry guard (`if c := seen[t];
c != nil { return c }`) comes first; then the switch on the type's kind.
Kinds with no case (notably `reflect.Map`, `chan`, `func`, sized integers
other than 32/64 bit, arrays and slices of non-byte element) fall through
to `panic("unsupported type")`, modelled as `Except.error`.

The bodies of `structCodecOf` and `pointerCodecOf` are not part of the
visible source.  Modelled from the spec: each installs a placeholder for
`t` into the per-build session registry before recursing into the type's
dependents, and composes the sub-codecs obtained from `codecOf`. -/
def codecOf (t : GoType) (seen : TypeCodecMap) : Except String CodecTok :=
  match seen t with
  | some c => .ok c
  | none =>
    match t with
    | .bool => .ok .boolC
    | .int => .ok .intC
    | .int32 => .ok .int32C
    | .int64 => .ok .int64C
    | .uint => .ok .uintC
    | .uint32 => .ok .uint32C
    | .uint64 => .ok .uint64C
    | .float32 => .ok .float32C
    | .float64 => .ok .float64C
    | .string => .ok .stringC
    | .array .uint8 n => .ok (.byteArrayC n)
    | .slice .uint8 => .ok .bytesC
    | .struct fs =>
      match codecOfFields fs (seen.insert (.struct fs) (.placeholder (.struct fs))) with
      | .ok cs => .ok (.structC cs)
      | .error e => .error e
    | .ptr e =>
      match codecOf e (seen.insert (.ptr e) (.placeholder (.ptr e))) with
      | .ok c => .ok (.pointerC c)
      | .error e => .error e
    | _ => .error "unsupported type"

/-- Modelled from the spec: the struct codec builder visits each field's
type in declaration order, obtaining a sub-codec for each. -/
def codecOfFields (fs : GoFields) (seen : TypeCodecMap) :
    Except String (List CodecTok) :=
  match fs with
  | .nil => .ok []
  | .cons t rest =>
    match codecOf t seen with
    | .ok c =>
      match codecOfFields rest seen with
      | .ok cs => .ok (c :: cs)
      | .error e => .error e
    | .error e => .error e

end

/-- The atomic `codecCache` snapshot: an immutable mapping from type
identity to codec. -/
def Cache : Type := TypeCodecMap

/-- `loadCachedCodec` from the source: read the current snapshot, return
the entry for `t` (possibly `nil`) together with the snapshot. -/
def loadCachedCodec (t : GoType) (cache : Cache) : Option CodecTok × Cache :=
  (cache t, cache)

/-- `storeCachedCodec` from the source: build a fresh map holding every
entry of the old snapshot plus `t ↦ newCodec`, and publish it as the new
snapshot. -/
def storeCachedCodec (t : GoType) (oldCache : Cache) (newCodec : CodecTok) :
    Cache :=
  TypeCodecMap.insert oldCache t newCodec

/-- `cachedCodecOf` from the source: on a hit return the cached codec and
leave the snapshot unchanged; on a miss build via `codecOf` with a fresh
session registry and publish the result.  The state-passing result pairs
the returned codec with the cache snapshot after the call. -/
def cachedCodecOf (t : GoType) (cache : Cache) :
    Except String (CodecTok × Cache) :=
  match loadCachedCodec t cache with
  | (some c, _) => .ok (c, cache)
  | (none, m) =>
    match codecOf t TypeCodecMap.empty with
    | .ok c => .ok (c, storeCachedCodec t m c)
    | .error e => .error e

mutual

/-- Spec-side predicate for the supported shapes, following the claim's
wording as amended: boolean, signed/unsigned integers (default, 32, 64
bit), 32/64-bit floats, string, fixed-length byte array, variable-length
byte sequence, struct (with supported field types), and pointer (with a
supported element type).  `map` is not in the set. -/
def supportedShape : GoType → Bool
  | .bool => true
  | .int => true
  | .int32 => true
  | .int64 => true
  | .uint => true
  | .uint32 => true
  | .uint64 => true
  | .float32 => true
  | .float64 => true
  | .string => true
  | .array .uint8 _ => true
  | .slice .uint8 => true
  | .struct fs => supportedFields fs
  | .ptr e => supportedShape e
  | _ => false

/-- All field types of a struct are supported shapes. -/
def supportedFields : GoFields → Bool
  | .nil => true
  | .cons t rest => supportedShape t && supportedFields rest

end

end Build

namespace Wire

/-- Modelled from the spec: unsigned LEB128 varint encoding, 7 value bits
per byte, high bit set on every byte except the last, little-endian group
order.  Bytes are modelled as `Nat` below 256. -/
def varintEnc (n : Nat) : List Nat :=
  if n < 128 then [n] else (n % 128 + 128) :: varintEnc (n / 128)
decreasing_by exact Nat.div_lt_self (by omega) (by omega)

/-- Modelled from the spec: varint decoding with a byte limit; fails if no
terminating byte (high bit clear) appears within `limit` bytes, or if the
buffer ends first.  Returns the value and the number of bytes read. -/
def varintDec (limit : Nat) (b : List Nat) : Option (Nat × Nat) :=
  match limit, b with
  | 0, _ => none
  | _ + 1, [] => none
  | l + 1, x :: rest =>
    if x < 128 then some (x, 1)
    else
      match varintDec l rest with
      | some (v, n) => some (x - 128 + 128 * v, n + 1)
      | none => none

/-- Modelled from the spec: pure arithmetic size of a varint encoding. -/
def varintSize (n : Nat) : Nat :=
  if n < 128 then 1 else 1 + varintSize (n / 128)
decreasing_by exact Nat.div_lt_self (by omega) (by omega)

/-- Modelled from the spec: fixed32 encoding, raw 4-byte little-endian. -/
def le4 (n : Nat) : List Nat :=
  [n % 256, n / 256 % 256, n / 256 ^ 2 % 256, n / 256 ^ 3 % 256]

/-- Modelled from the spec: fixed64 encoding, raw 8-byte little-endian. -/
def le8 (n : Nat) : List Nat :=
  [n % 256, n / 256 % 256, n / 256 ^ 2 % 256, n / 256 ^ 3 % 256,
    n / 256 ^ 4 % 256, n / 256 ^ 5 % 256, n / 256 ^ 6 % 256, n / 256 ^ 7 % 256]

/-- Modelled from the spec: fixed32 decoding; fails with truncated-input if
fewer than 4 bytes remain. -/
def le4Dec (b : List Nat) : Option (Nat × Nat) :=
  match b with
  | b0 :: b1 :: b2 :: b3 :: _ =>
    some (b0 + 256 * b1 + 256 ^ 2 * b2 + 256 ^ 3 * b3, 4)
  | _ => none

/-- Modelled from the spec: fixed64 decoding; fails with truncated-input if
fewer than 8 bytes remain. -/
def le8Dec (b : List Nat) : Option (Nat × Nat) :=
  match b with
  | b0 :: b1 :: b2 :: b3 :: b4 :: b5 :: b6 :: b7 :: _ =>
    some (b0 + 256 * b1 + 256 ^ 2 * b2 + 256 ^ 3 * b3 + 256 ^ 4 * b4 +
      256 ^ 5 * b5 + 256 ^ 6 * b6 + 256 ^ 7 * b7, 8)
  | _ => none

/-- Modelled from the spec: varlen encoding, a varint length N followed by
exactly N raw bytes. -/
def varlenEnc (bs : List Nat) : List Nat :=
  varintEnc bs.length ++ bs

/-- Modelled from the spec: varlen decoding; fails with invalid-encoding if
the length N exceeds the remaining buffer length. -/
def varlenDec (b : List Nat) : Option (List Nat × Nat) :=
  match varintDec 10 b with
  | some (len, n) =>
    let rest := b.drop n
    if len ≤ rest.length then some (rest.take len, n + len) else none
  | none => none

/-- Two's-complement conversion of a signed 64-bit integer to the unsigned
64-bit value carried by its varint encoding. -/
def intToU64 (i : Int) : Nat :=
  (i % (2 ^ 64 : Int)).toNat

/-- Inverse of `intToU64` on the 64-bit range. -/
def u64ToInt (n : Nat) : Int :=
  if n < 2 ^ 63 then (n : Int) else (n : Int) - 2 ^ 64

mutual

/-- The universe of supported runtime shapes handled by the synthesized
codecs: booleans, unsigned and signed (two's complement) 64-bit integers
(covering the default and explicit integer widths), fixed 32/64-bit values
(covering the IEEE float bit patterns, which the codec moves verbatim),
variable-length byte sequences (covering text strings and byte slices),
fixed-length byte arrays, structs with numbered fields, pointers, and
maps. -/
inductive Ty where
  | tbool
  | tuint
  | tint
  | tfix32
  | tfix64
  | tbytes
  | tarray (size : Nat)
  | tstruct (fields : TyFields)
  | tptr (elem : Ty)
  | tmap (key val : Ty)
deriving DecidableEq

/-- Struct fields: field number, field type, in declaration order. -/
inductive TyFields where
  | nil
  | fcons (num : Nat) (t : Ty) (rest : TyFields)
deriving DecidableEq

end

mutual

/-- Runtime values of the supported shapes. -/
inductive Value where
  | vbool (b : Bool)
  | vuint (n : Nat)
  | vint (i : Int)
  | vfix32 (n : Nat)
  | vfix64 (n : Nat)
  | vbytes (bs : List Nat)
  | vstruct (fs : VFields)
  | vnil
  | vsome (v : Value)
  | vmap (es : VEntries)
deriving DecidableEq

/-- Struct field values: field number, value, in declaration order. -/
inductive VFields where
  | nil
  | fcons (num : Nat) (v : Value) (rest : VFields)
deriving DecidableEq

/-- Map entries in iteration order. -/
inductive VEntries where
  | nil
  | econs (k v : Value) (rest : VEntries)
deriving DecidableEq

end

mutual

/-- The zero value of each shape. -/
def zeroVal : Ty → Value
  | .tbool => .vbool false
  | .tuint => .vuint 0
  | .tint => .vint 0
  | .tfix32 => .vfix32 0
  | .tfix64 => .vfix64 0
  | .tbytes => .vbytes []
  | .tarray n => .vbytes (List.replicate n 0)
  | .tstruct fs => .vstruct (zeroFields fs)
  | .tptr _ => .vnil
  | .tmap _ _ => .vmap .nil

/-- Zero values of a struct's fields. -/
def zeroFields : TyFields → VFields
  | .nil => .nil
  | .fcons num t rest => .fcons num (zeroVal t) (zeroFields rest)

end

/-- Emptiness of a map's entry list. -/
def VEntries.isEmpty : VEntries → Bool
  | .nil => true
  | .econs _ _ _ => false

mutual

/-- Modelled from the spec: the zero test used for zero-value elision
(absence on the wire means the default value). -/
def isZero : Value → Bool
  | .vbool b => !b
  | .vuint n => n == 0
  | .vint i => i == 0
  | .vfix32 n => n == 0
  | .vfix64 n => n == 0
  | .vbytes bs => bs.isEmpty
  | .vstruct fs => fieldsZero fs
  | .vnil => true
  | .vsome _ => false
  | .vmap es => es.isEmpty

/-- All fields are zero-valued. -/
def fieldsZero : VFields → Bool
  | .nil => true
  | .fcons _ v rest => isZero v && fieldsZero rest

end

/-- The `inlined` decision of the source, transported to the semantic type
universe: pointers and maps inline, and a single-field struct inlines when
its sole field's type inlines. -/
def inlinedTy : Ty → Bool
  | .tptr _ => true
  | .tmap _ _ => true
  | .tstruct (.fcons _ t .nil) => inlinedTy t
  | _ => false

/-- The value-level counterpart of `inlinedTy`: on well-formed values the
value's shape determines the type's inlining decision. -/
def inlinedV : Value → Bool
  | .vnil => true
  | .vsome _ => true
  | .vmap _ => true
  | .vstruct (.fcons _ v .nil) => inlinedV v
  | _ => false

/-- The wire-type code placed in a field's tag, determined by the value's
shape through the inlining chain (a container's field is tagged with its
inlined content's wire type). -/
def wtV : Value → Nat
  | .vbool _ => Build.WireType.code .varint
  | .vuint _ => Build.WireType.code .varint
  | .vint _ => Build.WireType.code .varint
  | .vfix32 _ => Build.WireType.code .fixed32
  | .vfix64 _ => Build.WireType.code .fixed64
  | .vbytes _ => Build.WireType.code .varlen
  | .vstruct (.fcons _ v .nil) =>
    if inlinedV v then wtV v else Build.WireType.code .varlen
  | .vstruct _ => Build.WireType.code .varlen
  | .vnil => Build.WireType.code .varlen
  | .vsome w => wtV w
  | .vmap _ => Build.WireType.code .varlen

mutual

/-- Modelled from the spec: encoding of one struct field.  A zero-valued
field is elided entirely (implicit presence). -/
def fieldEnc (num : Nat) (v : Value) : List Nat :=
  if isZero v then [] else fieldTagged num v
termination_by (sizeOf v, 1)

/-- Modelled from the spec: encoding of one non-elided struct field.
Inline layers (pointer, single-field struct whose sole field inlines)
collapse into the contained value's field representation; a map field is a
repeated sequence of varlen-wrapped key/value entries, each preceded by
the field's tag; every other shape is the tag followed by its payload. -/
def fieldTagged (num : Nat) (v : Value) : List Nat :=
  match v with
  | .vsome w => fieldTagged num w
  | .vnil => []
  | .vmap es => entriesEnc num es
  | .vstruct (.fcons n1 w .nil) =>
    if inlinedV w then fieldTagged num w
    else
      varintEnc (num * 8 + Build.WireType.code .varlen) ++
        varlenEnc (bodyEnc (.fcons n1 w .nil))
  | .vstruct fs =>
    varintEnc (num * 8 + Build.WireType.code .varlen) ++ varlenEnc (bodyEnc fs)
  | .vbool b =>
    varintEnc (num * 8 + Build.WireType.code .varint) ++
      varintEnc (if b then 1 else 0)
  | .vuint n => varintEnc (num * 8 + Build.WireType.code .varint) ++ varintEnc n
  | .vint i =>
    varintEnc (num * 8 + Build.WireType.code .varint) ++ varintEnc (intToU64 i)
  | .vfix32 n => varintEnc (num * 8 + Build.WireType.code .fixed32) ++ le4 n
  | .vfix64 n => varintEnc (num * 8 + Build.WireType.code .fixed64) ++ le8 n
  | .vbytes bs =>
    varintEnc (num * 8 + Build.WireType.code .varlen) ++ varlenEnc bs
termination_by (sizeOf v, 0)

/-- Modelled from the spec: a struct body is the concatenation of its
field encodings in declaration order. -/
def bodyEnc : VFields → List Nat
  | .nil => []
  | .fcons num v rest => fieldEnc num v ++ bodyEnc rest
termination_by fs => (sizeOf fs, 2)

/-- Modelled from the spec: a map is a repeated sequence of varlen-wrapped
key/value entries, one per element, each preceded by the field's tag. -/
def entriesEnc (num : Nat) : VEntries → List Nat
  | .nil => []
  | .econs k w rest =>
    varintEnc (num * 8 + Build.WireType.code .varlen) ++
      varlenEnc (fieldEnc 1 k ++ fieldEnc 2 w) ++ entriesEnc num rest
termination_by es => (sizeOf es, 2)

/-- Modelled from the spec: the top-level representation produced by
`Marshal` (which passes the inline flag): a zero value encodes to zero
bytes; a struct encodes as its bare body; a map as its repeated entries
(tagged with field number 1 at top level); a present pointer as its
pointee's representation; scalars and byte sequences as their bare
payloads. -/
def payloadEnc (v : Value) : List Nat :=
  if isZero v then [] else payloadCore v
termination_by (sizeOf v, 1)

/-- The non-zero top-level payloads. -/
def payloadCore : Value → List Nat
  | .vbool b => varintEnc (if b then 1 else 0)
  | .vuint n => varintEnc n
  | .vint i => varintEnc (intToU64 i)
  | .vfix32 n => le4 n
  | .vfix64 n => le8 n
  | .vbytes bs => varlenEnc bs
  | .vstruct fs => bodyEnc fs
  | .vnil => []
  | .vsome w => payloadEnc w
  | .vmap es => entriesEnc 1 es
termination_by v => (sizeOf v, 0)

end

/-- Modelled from the spec: a map entry is a two-field struct body with the
key at field number 1 and the value at field number 2. -/
def entryEnc (k w : Value) : List Nat :=
  fieldEnc 1 k ++ fieldEnc 2 w

mutual

/-- Modelled from the spec: pure arithmetic size of one struct field. -/
def fieldSize (num : Nat) (v : Value) : Nat :=
  if isZero v then 0 else taggedSize num v
termination_by (sizeOf v, 1)

/-- Size of a non-elided struct field. -/
def taggedSize (num : Nat) (v : Value) : Nat :=
  match v with
  | .vsome w => taggedSize num w
  | .vnil => 0
  | .vmap es => entriesSize num es
  | .vstruct (.fcons n1 w .nil) =>
    if inlinedV w then taggedSize num w
    else
      varintSize (num * 8 + Build.WireType.code .varlen) +
        varintSize (bodySize (.fcons n1 w .nil)) + bodySize (.fcons n1 w .nil)
  | .vstruct fs =>
    varintSize (num * 8 + Build.WireType.code .varlen) +
      varintSize (bodySize fs) + bodySize fs
  | .vbool b =>
    varintSize (num * 8 + Build.WireType.code .varint) +
      varintSize (if b then 1 else 0)
  | .vuint n => varintSize (num * 8 + Build.WireType.code .varint) + varintSize n
  | .vint i =>
    varintSize (num * 8 + Build.WireType.code .varint) + varintSize (intToU64 i)
  | .vfix32 n => varintSize (num * 8 + Build.WireType.code .fixed32) + 4
  | .vfix64 n => varintSize (num * 8 + Build.WireType.code .fixed64) + 8
  | .vbytes bs =>
    varintSize (num * 8 + Build.WireType.code .varlen) +
      varintSize bs.length + bs.length
termination_by (sizeOf v, 0)

/-- Size of a struct body. -/
def bodySize : VFields → Nat
  | .nil => 0
  | .fcons num v rest => fieldSize num v + bodySize rest
termination_by fs => (sizeOf fs, 2)

/-- Size of a map's repeated entries. -/
def entriesSize (num : Nat) : VEntries → Nat
  | .nil => 0
  | .econs k w rest =>
    varintSize (num * 8 + Build.WireType.code .varlen) +
      varintSize (fieldSize 1 k + fieldSize 2 w) +
      (fieldSize 1 k + fieldSize 2 w) + entriesSize num rest
termination_by es => (sizeOf es, 2)

/-- Top-level size, mirroring `payloadEnc`. -/
def sizeVal (v : Value) : Nat :=
  if isZero v then 0 else coreSize v
termination_by (sizeOf v, 1)

/-- Size of the non-zero top-level payloads. -/
def coreSize : Value → Nat
  | .vbool b => varintSize (if b then 1 else 0)
  | .vuint n => varintSize n
  | .vint i => varintSize (intToU64 i)
  | .vfix32 _ => 4
  | .vfix64 _ => 8
  | .vbytes bs => varintSize bs.length + bs.length
  | .vstruct fs => bodySize fs
  | .vnil => 0
  | .vsome w => sizeVal w
  | .vmap es => entriesSize 1 es
termination_by v => (sizeOf v, 0)

end

/-- Size of a map entry body. -/
def entrySize (k w : Value) : Nat :=
  fieldSize 1 k + fieldSize 2 w

/-- `Size` entry point: delegates to the codec's size function with the
inline flag, as the source does. -/
def Size (v : Value) : Nat := sizeVal v

/-- `Marshal` entry point: allocates exactly `Size v` bytes and has the
codec's encode function fill them (the modelled encoder is total, matching
the spec's statement that encoding well-formed supported values does not
fail). -/
def Marshal (v : Value) : List Nat := payloadEnc v

/-- Key membership in a map's entries. -/
def keyMem (k : Value) : VEntries → Bool
  | .nil => false
  | .econs k0 _ rest => (k == k0) || keyMem k rest

/-- A Go map has pairwise distinct keys. -/
def uniqueKeys : VEntries → Bool
  | .nil => true
  | .econs k _ rest => !keyMem k rest && uniqueKeys rest

/-- Field number membership in a struct shape. -/
def numMem (num : Nat) : TyFields → Bool
  | .nil => false
  | .fcons n _ rest => (num == n) || numMem num rest

/-- Field numbers are pairwise distinct. -/
def distinctNums : TyFields → Bool
  | .nil => true
  | .fcons n _ rest => !numMem n rest && distinctNums rest

mutual

/-- Modelled from the spec: the recursive well-formedness of a value at a
shape.  Carries the numeric range invariants of the Go value model
(64-bit integer ranges, byte ranges, fixed array lengths, map key
uniqueness) and the finite-size invariants every in-memory Go value
enjoys (every varlen block that can appear in the encoding is shorter
than `2 ^ 64`). -/
def wf : Ty → Value → Bool
  | .tbool, .vbool _ => true
  | .tuint, .vuint n => decide (n < 2 ^ 64)
  | .tint, .vint i => decide (-(2 ^ 63) ≤ i) && decide (i < 2 ^ 63)
  | .tfix32, .vfix32 n => decide (n < 2 ^ 32)
  | .tfix64, .vfix64 n => decide (n < 2 ^ 64)
  | .tbytes, .vbytes bs =>
    bs.all (fun x => decide (x < 256)) && decide (bs.length < 2 ^ 64)
  | .tarray n, .vbytes bs =>
    (bs.length == n) && bs.all (fun x => decide (x < 256)) &&
      decide (n < 2 ^ 64)
  | .tstruct fs, .vstruct vfs =>
    wfFields fs vfs && decide ((bodyEnc vfs).length < 2 ^ 64)
  | .tptr _, .vnil => true
  | .tptr te, .vsome w => wf te w
  | .tmap kt vt, .vmap es => wfEntries kt vt es && uniqueKeys es
  | _, _ => false
termination_by _t v => sizeOf v

/-- Fields are well-formed pointwise, with matching field numbers. -/
def wfFields : TyFields → VFields → Bool
  | .nil, .nil => true
  | .fcons n t tr, .fcons m v vr => (n == m) && wf t v && wfFields tr vr
  | _, _ => false
termination_by _tf vf => sizeOf vf

/-- Entries are well-formed pointwise. -/
def wfEntries (kt vt : Ty) : VEntries → Bool
  | .nil => true
  | .econs k w rest =>
    wf kt k && wf vt w && decide ((entryEnc k w).length < 2 ^ 64) &&
      wfEntries kt vt rest
termination_by es => sizeOf es

end

mutual

/-- Well-formedness of a shape: positive bounded field numbers, distinct
within each struct, and pointer elements that do not themselves inline
(a pointer to a pointer, to a map, or to a single-field struct collapsing
to one of those cannot be distinguished from an absent pointer on the
wire, since an absent pointer encodes as zero bytes entirely). -/
def good : Ty → Bool
  | .tbool => true
  | .tuint => true
  | .tint => true
  | .tfix32 => true
  | .tfix64 => true
  | .tbytes => true
  | .tarray _ => true
  | .tstruct fs => goodFields fs && distinctNums fs
  | .tptr te => good te && !inlinedTy te
  | .tmap kt vt => good kt && good vt

/-- Field numbers are positive and bounded, and field types are good. -/
def goodFields : TyFields → Bool
  | .nil => true
  | .fcons num t rest =>
    decide (1 ≤ num) && decide (num < 2 ^ 61) && good t && goodFields rest

end

/-- Modelled from the spec: skipping an unknown field: varint fields are
decoded and discarded, fixed fields skip their fixed width, varlen fields
skip their length-prefixed block; other wire types are invalid. -/
def skipUnknown (wt : Nat) (b : List Nat) : Option Nat :=
  if wt = Build.WireType.code .varint then
    (varintDec 10 b).map (fun p => p.2)
  else if wt = Build.WireType.code .fixed64 then
    if 8 ≤ b.length then some 8 else none
  else if wt = Build.WireType.code .varlen then
    (varlenDec b).map (fun p => p.2)
  else if wt = Build.WireType.code .fixed32 then
    if 4 ≤ b.length then some 4 else none
  else none

/-- Field type lookup by field number. -/
def getTy : TyFields → Nat → Option Ty
  | .nil, _ => none
  | .fcons n t rest, num => if num = n then some t else getTy rest num

/-- Field value lookup by field number. -/
def getV : VFields → Nat → Option Value
  | .nil, _ => none
  | .fcons n v rest, num => if num = n then some v else getV rest num

/-- Field value update by field number (the offset write of the decoder). -/
def setV : VFields → Nat → Value → VFields
  | .nil, _, _ => .nil
  | .fcons n w rest, num, v =>
    if num = n then .fcons n v rest else .fcons n w (setV rest num v)

/-- The decoder's current value for a known field, with the zero value as
the default for a fresh target. -/
def getVOr (cur : VFields) (num : Nat) (ty : Ty) : Value :=
  match getV cur num with
  | some w => w
  | none => zeroVal ty

/-- The current pointee of a pointer being decoded into (a nil pointer
target makes the decoder allocate a fresh zero pointee). -/
def curPointee (te : Ty) (cur : Value) : Value :=
  match cur with
  | .vsome w => w
  | _ => zeroVal te

/-- The current inner value of an inlined single-field struct. -/
def curField1 (t1 : Ty) (cur : Value) : Value :=
  match cur with
  | .vstruct (.fcons _ w .nil) => w
  | _ => zeroVal t1

/-- The current entries of a map being decoded into. -/
def curEntries (cur : Value) : VEntries :=
  match cur with
  | .vmap es => es
  | _ => .nil

/-- Map insertion with last-write-wins semantics for duplicate keys and
append-at-end for fresh keys. -/
def insertEntry : VEntries → Value → Value → VEntries
  | .nil, k, v => .econs k v .nil
  | .econs k0 v0 rest, k, v =>
    if k = k0 then .econs k0 v rest else .econs k0 v0 (insertEntry rest k v)

mutual

/-- Modelled from the spec: decoding of one known struct field, directed
by the field's type, mirroring `fieldTagged` (the tag has already been
consumed by the struct decode loop).  `fuel` bounds the loop iterations
performed by nested decode loops; every loop iteration consumes at least
one byte, so a fuel of the buffer length suffices. -/
def decField (fuel : Nat) (ty : Ty) (cur : Value) (b : List Nat) :
    Option (Value × Nat) :=
  match ty with
  | .tbool => (varintDec 10 b).map (fun p => (.vbool (p.1 != 0), p.2))
  | .tuint => (varintDec 10 b).map (fun p => (.vuint (p.1 % 2 ^ 64), p.2))
  | .tint =>
    (varintDec 10 b).map (fun p => (.vint (u64ToInt (p.1 % 2 ^ 64)), p.2))
  | .tfix32 => (le4Dec b).map (fun p => (.vfix32 p.1, p.2))
  | .tfix64 => (le8Dec b).map (fun p => (.vfix64 p.1, p.2))
  | .tbytes => (varlenDec b).map (fun p => (.vbytes p.1, p.2))
  | .tarray _ => (varlenDec b).map (fun p => (.vbytes p.1, p.2))
  | .tstruct (.fcons n1 t1 .nil) =>
    if inlinedTy t1 then
      (decField fuel t1 (curField1 t1 cur) b).map
        (fun p => (.vstruct (.fcons n1 p.1 .nil), p.2))
    else
      match varlenDec b with
      | some (block, n) =>
        match fuel with
        | 0 => none
        | f + 1 =>
          match decLoop f (.fcons n1 t1 .nil) (zeroFields (.fcons n1 t1 .nil))
              block with
          | some fs2 => some (.vstruct fs2, n)
          | none => none
      | none => none
  | .tstruct fs =>
    match varlenDec b with
    | some (block, n) =>
      match fuel with
      | 0 => none
      | f + 1 =>
        match decLoop f fs (zeroFields fs) block with
        | some fs2 => some (.vstruct fs2, n)
        | none => none
    | none => none
  | .tptr te =>
    (decField fuel te (curPointee te cur) b).map (fun p => (.vsome p.1, p.2))
  | .tmap kt vt =>
    match varlenDec b with
    | some (block, n) =>
      match fuel with
      | 0 => none
      | f + 1 =>
        match decLoop f (.fcons 1 kt (.fcons 2 vt .nil))
            (.fcons 1 (zeroVal kt) (.fcons 2 (zeroVal vt) .nil)) block with
        | some (.fcons _ k (.fcons _ w .nil)) =>
          some (.vmap (insertEntry (curEntries cur) k w), n)
        | _ => none
    | none => none
termination_by (fuel, 0, sizeOf ty)

/-- Modelled from the spec: the struct decode loop: read tag/value pairs
until the buffer is exhausted; known field numbers are decoded into their
offset (later occurrences overwriting earlier ones, map fields
accumulating entries), unknown field numbers are skipped by wire type. -/
def decLoop (fuel : Nat) (fs : TyFields) (cur : VFields) (b : List Nat) :
    Option VFields :=
  match b with
  | [] => some cur
  | _ :: _ =>
    match fuel with
    | 0 => none
    | f + 1 =>
      match varintDec 10 b with
      | some (tag, tn) =>
        let rest := b.drop tn
        match getTy fs (tag / 8) with
        | some ty =>
          match decField (f + 1) ty (getVOr cur (tag / 8) ty) rest with
          | some (v2, n) => decLoop f fs (setV cur (tag / 8) v2) (rest.drop n)
          | none => none
        | none =>
          match skipUnknown (tag % 8) rest with
          | some n => decLoop f fs cur (rest.drop n)
          | none => none
      | none => none
termination_by (fuel, 1, 0)

/-- Modelled from the spec: decode loop for a top-level map, one
varlen-wrapped entry per tag. -/
def decMapLoop (fuel : Nat) (kt vt : Ty) (es : VEntries) (b : List Nat) :
    Option VEntries :=
  match b with
  | [] => some es
  | _ :: _ =>
    match fuel with
    | 0 => none
    | f + 1 =>
      match varintDec 10 b with
      | some (_, tn) =>
        let rest := b.drop tn
        match varlenDec rest with
        | some (block, n) =>
          match decLoop f (.fcons 1 kt (.fcons 2 vt .nil))
              (.fcons 1 (zeroVal kt) (.fcons 2 (zeroVal vt) .nil)) block with
          | some (.fcons _ k (.fcons _ w .nil)) =>
            decMapLoop f kt vt (insertEntry es k w) (rest.drop n)
          | _ => none
        | none => none
      | none => none
termination_by (fuel, 1, 0)

/-- Modelled from the spec: top-level decode, mirroring `payloadEnc`: a
struct decodes as a bare body of tag/value pairs, a map as repeated
entries, a pointer by decoding its pointee, scalars and byte sequences as
bare payloads.  Returns the decoded value and the bytes consumed. -/
def decTop (fuel : Nat) (ty : Ty) (cur : Value) (b : List Nat) :
    Option (Value × Nat) :=
  match ty with
  | .tstruct fs =>
    match fuel with
    | 0 => none
    | f + 1 =>
      match decLoop f fs
          (match cur with
            | .vstruct cfs => cfs
            | _ => zeroFields fs) b with
      | some fs2 => some (.vstruct fs2, b.length)
      | none => none
  | .tmap kt vt =>
    match decMapLoop fuel kt vt (curEntries cur) b with
    | some es => some (.vmap es, b.length)
    | none => none
  | .tptr te =>
    (decTop fuel te (curPointee te cur) b).map (fun p => (.vsome p.1, p.2))
  | t => decField fuel t cur b
termination_by (fuel, 2, sizeOf ty)

end

/-- Outcome of an `Unmarshal` call: success (with the target's value after
the call), a recoverable data error, or a fatal caller-contract violation
(the panic of `reflect.Type.Elem` on a non-container kind, or a
dereference through a non-pointer target). -/
inductive UnmarshalResult where
  | ok (t : Ty) (v : Value)
  | err
  | fatal
deriving DecidableEq

/-- `Unmarshal` from the source: an empty buffer succeeds as a no-op
before the target is even inspected; otherwise the target must be a
non-nil pointer (`t = t.Elem()` panics on a non-pointer target, and
decoding through a non-pointer or nil target dereferences an address that
is not a value of the element type, modelled as fatal); the element
codec's decode runs on the buffer, its error is returned, and a success
that consumed fewer bytes than the buffer length is a trailing-bytes
error. -/
def Unmarshal (b : List Nat) (t : Ty) (v : Value) : UnmarshalResult :=
  if b.isEmpty then .ok t v
  else
    match t, v with
    | .tptr te, .vsome w =>
      match decTop (b.length + 1) te w b with
      | none => .err
      | some (w2, n) =>
        if n < b.length then .err else .ok (.tptr te) (.vsome w2)
    | .tptr _, _ => .fatal
    | _, _ => .fatal

/-- The bytes of a non-map field after its tag, mirroring `fieldTagged`
through the inline chain. -/
def fieldPayload : Value → List Nat
  | .vbool b => varintEnc (if b then 1 else 0)
  | .vuint n => varintEnc n
  | .vint i => varintEnc (intToU64 i)
  | .vfix32 n => le4 n
  | .vfix64 n => le8 n
  | .vbytes bs => varlenEnc bs
  | .vstruct (.fcons n1 w .nil) =>
    if inlinedV w then fieldPayload w
    else varlenEnc (bodyEnc (.fcons n1 w .nil))
  | .vstruct fs => varlenEnc (bodyEnc fs)
  | .vnil => []
  | .vsome w => fieldPayload w
  | .vmap _ => []

/-- A shape whose inline chain terminates in a map (such a field is
encoded as repeated entries rather than a tagged payload). -/
def resolvesMap : Ty → Bool
  | .tmap _ _ => true
  | .tstruct (.fcons _ t .nil) => inlinedTy t && resolvesMap t
  | _ => false

/-- The key type of the map at the end of an inline chain. -/
def mapKeyTy : Ty → Ty
  | .tmap kt _ => kt
  | .tstruct (.fcons _ t .nil) => mapKeyTy t
  | _ => .tbool

/-- The value type of the map at the end of an inline chain. -/
def mapValTy : Ty → Ty
  | .tmap _ vt => vt
  | .tstruct (.fcons _ t .nil) => mapValTy t
  | _ => .tbool

/-- Rebuild the value of a map-resolving shape around an entry list. -/
def mkMapVal : Ty → VEntries → Value
  | .tmap _ _, es => .vmap es
  | .tstruct (.fcons n1 t1 .nil), es => .vstruct (.fcons n1 (mkMapVal t1 es) .nil)
  | _, _ => .vnil

/-- The entry list inside a map-resolving value. -/
def entriesOf : Value → VEntries
  | .vmap es => es
  | .vstruct (.fcons _ w .nil) => entriesOf w
  | _ => .nil

/-- Concatenation of entry lists. -/
def appendEntries : VEntries → VEntries → VEntries
  | .nil, es2 => es2
  | .econs k v r, es2 => .econs k v (appendEntries r es2)

/-- Write each field of the second list into the first, in order. -/
def setAll : VFields → VFields → VFields
  | cur, .nil => cur
  | cur, .fcons num v rest => setAll (setV cur num v) rest

mutual

/-- Induction weight of a value (map entries weigh extra so that an
entry's decode, which routes through a two-field struct body, still
weighs less than the entry). -/
def wV : Value → Nat
  | .vbool _ => 1
  | .vuint _ => 1
  | .vint _ => 1
  | .vfix32 _ => 1
  | .vfix64 _ => 1
  | .vbytes _ => 1
  | .vstruct fs => 1 + wFs fs
  | .vnil => 1
  | .vsome w => 1 + wV w
  | .vmap es => 1 + wEs es

/-- Induction weight of a field list. -/
def wFs : VFields → Nat
  | .nil => 1
  | .fcons _ v rest => 1 + wV v + wFs rest

/-- Induction weight of an entry list. -/
def wEs : VEntries → Nat
  | .nil => 1
  | .econs k w rest => 10 + wV k + wV w + wEs rest

end

/-- The one top-level case the specification itself puts outside the exact
round trip: a pointer to a zero value marshals to zero bytes (a nil
pointer encodes as zero bytes entirely and a zero pointee contributes
none), and unmarshalling zero bytes is a no-op, which cannot restore the
pointer.  Every other top-level value is exactly restored. -/
def topOk : Value → Bool
  | .vsome w => !isZero w
  | _ => true

end Wire

namespace Build

@[simp] theorem isOk_ok {e a : Type} (x : a) :
    (Except.ok x : Except e a).isOk = true := rfl

@[simp] theorem isOk_error {e a : Type} (x : e) :
    (Except.error x : Except e a).isOk = false := rfl

mutual

/-- On a session registry whose registered types are all strictly larger
than `t` (as is the case for the ancestors registered on the way down a
finite type tree), `codecOf` succeeds exactly on supported shapes. -/
theorem codecOf_isOk_eq (t : GoType) (seen : TypeCodecMap)
    (h : ∀ u, (seen u).isSome → sizeOf t < sizeOf u) :
    (codecOf t seen).isOk = supportedShape t := by
  have hseen : seen t = none := by
    cases hc : seen t with
    | none => rfl
    | some c =>
      have := h t (by simp [hc])
      omega
  cases t with
  | array e n =>
    cases e <;> simp [codecOf, hseen, supportedShape]
  | slice e =>
    cases e <;> simp [codecOf, hseen, supportedShape]
  | struct fs =>
    have hrec := codecOfFields_isOk_eq fs
      (seen.insert (.struct fs) (.placeholder (.struct fs)))
      (by
        intro u hu
        by_cases he : u = .struct fs
        · subst he
          simp only [GoType.struct.sizeOf_spec]
          omega
        · have hlt := h u (by
            simp only [TypeCodecMap.insert, he, if_false] at hu
            exact hu)
          have hfs : sizeOf fs < sizeOf (GoType.struct fs) := by
            simp only [GoType.struct.sizeOf_spec]
            omega
          omega)
    simp only [codecOf, hseen, supportedShape]
    cases hx : codecOfFields fs
        (seen.insert (.struct fs) (.placeholder (.struct fs))) with
    | ok cs => rw [hx] at hrec; simp at hrec ⊢; exact hrec
    | error e => rw [hx] at hrec; simp at hrec ⊢; exact hrec
  | ptr e =>
    have hrec := codecOf_isOk_eq e
      (seen.insert (.ptr e) (.placeholder (.ptr e)))
      (by
        intro u hu
        by_cases he : u = .ptr e
        · subst he
          simp only [GoType.ptr.sizeOf_spec]
          omega
        · have hlt := h u (by
            simp only [TypeCodecMap.insert, he, if_false] at hu
            exact hu)
          have hfs : sizeOf e < sizeOf (GoType.ptr e) := by
            simp only [GoType.ptr.sizeOf_spec]
            omega
          omega)
    simp only [codecOf, hseen, supportedShape]
    cases hx : codecOf e (seen.insert (.ptr e) (.placeholder (.ptr e))) with
    | ok c => rw [hx] at hrec; simp at hrec ⊢; exact hrec
    | error e2 => rw [hx] at hrec; simp at hrec ⊢; exact hrec
  | bool => simp [codecOf, hseen, supportedShape]
  | int => simp [codecOf, hseen, supportedShape]
  | int8 => simp [codecOf, hseen, supportedShape]
  | int16 => simp [codecOf, hseen, supportedShape]
  | int32 => simp [codecOf, hseen, supportedShape]
  | int64 => simp [codecOf, hseen, supportedShape]
  | uint => simp [codecOf, hseen, supportedShape]
  | uint8 => simp [codecOf, hseen, supportedShape]
  | uint16 => simp [codecOf, hseen, supportedShape]
  | uint32 => simp [codecOf, hseen, supportedShape]
  | uint64 => simp [codecOf, hseen, supportedShape]
  | float32 => simp [codecOf, hseen, supportedShape]
  | float64 => simp [codecOf, hseen, supportedShape]
  | string => simp [codecOf, hseen, supportedShape]
  | chan => simp [codecOf, hseen, supportedShape]
  | func => simp [codecOf, hseen, supportedShape]
  | iface => simp [codecOf, hseen, supportedShape]
  | map k v => simp [codecOf, hseen, supportedShape]

/-- Field-list version of `codecOf_isOk_eq`. -/
theorem codecOfFields_isOk_eq (fs : GoFields) (seen : TypeCodecMap)
    (h : ∀ u, (seen u).isSome → sizeOf fs < sizeOf u) :
    (codecOfFields fs seen).isOk = supportedFields fs := by
  cases fs with
  | nil => simp [codecOfFields, supportedFields]
  | cons t rest =>
    have ht := codecOf_isOk_eq t seen (by
      intro u hu
      have h1 := h u hu
      have h2 : sizeOf t < sizeOf (GoFields.cons t rest) := by
        simp only [GoFields.cons.sizeOf_spec]
        omega
      omega)
    have hr := codecOfFields_isOk_eq rest seen (by
      intro u hu
      have h1 := h u hu
      have h2 : sizeOf rest < sizeOf (GoFields.cons t rest) := by
        simp only [GoFields.cons.sizeOf_spec]
        omega
      omega)
    simp only [codecOfFields, supportedFields]
    cases hx : codecOf t seen with
    | ok c =>
      rw [hx] at ht
      cases hy : codecOfFields rest seen with
      | ok cs =>
        rw [hy] at hr
        simp at ht hr
        simp [ht, hr]
      | error e =>
        rw [hy] at hr
        simp at ht hr
        simp [ht, hr]
    | error e =>
      rw [hx] at ht
      simp at ht
      simp [ht]

end

/-- Claim C8: during a single build session, a type that already has a
non-nil entry in the session registry (the `seen` map) makes `codecOf`
return that registered placeholder immediately instead of recursing, which
is what lets a self-referential type's build terminate. -/
theorem claim_C8 (t : GoType) (seen : TypeCodecMap) (c : CodecTok)
    (h : seen t = some c) : codecOf t seen = .ok c := by
  cases t
  case array e n => cases e <;> ((rw [codecOf]; rw [h]) <;> simp)
  case slice e => cases e <;> ((rw [codecOf]; rw [h]) <;> simp)
  all_goals ((rw [codecOf]; rw [h]) <;> simp)

theorem claim_C8_witness :
    (TypeCodecMap.insert TypeCodecMap.empty (.struct (.cons .int .nil))
          (.placeholder (.struct (.cons .int .nil))))
        (.struct (.cons .int .nil)) =
      some (.placeholder (.struct (.cons .int .nil))) ∧
    codecOf (.struct (.cons .int .nil))
        (TypeCodecMap.insert TypeCodecMap.empty (.struct (.cons .int .nil))
          (.placeholder (.struct (.cons .int .nil)))) =
      .ok (.placeholder (.struct (.cons .int .nil))) :=
  ⟨by simp [TypeCodecMap.insert],
    claim_C8 _ _ _ (by simp [TypeCodecMap.insert])⟩

/-- Claim C3, counterexample to the claim as stated: the map shape is in
the claim's supported set, but `codecOf` has no `reflect.Map` case and
falls through to the fatal unsupported-shape error. -/
theorem claim_C3_counterexample :
    codecOf (.map .int .int) TypeCodecMap.empty = .error "unsupported type" :=
  rfl

/-- Claim C3, as amended: the codec builder returns a Codec exactly for
the shapes built from boolean, signed/unsigned integers (default, 32, 64
bit), 32/64-bit floats, string, fixed-length byte arrays, variable-length
byte sequences, structs of supported fields, and pointers to supported
types; every other shape — map included — raises the fatal
unsupported-shape configuration error. -/
theorem claim_C3 (t : GoType) :
    (codecOf t TypeCodecMap.empty).isOk = supportedShape t :=
  codecOf_isOk_eq t TypeCodecMap.empty
    (fun u hu => by simp [TypeCodecMap.empty] at hu)

/-- Claim C7: publishing a codec constructs a new cache snapshot equal to
the old snapshot plus the new entry, so after `cachedCodecOf t` returns,
the cache maps `t` to a codec and every entry of the old snapshot is still
present: the cache only grows. -/
theorem claim_C7 (t : GoType) (cache : Cache) (c : CodecTok) (cache2 : Cache)
    (h : cachedCodecOf t cache = .ok (c, cache2)) :
    (cache2 t).isSome ∧ ∀ u d, cache u = some d → cache2 u = some d := by
  unfold cachedCodecOf loadCachedCodec at h
  cases hc : cache t with
  | some c0 =>
    rw [hc] at h
    simp only [Except.ok.injEq, Prod.mk.injEq] at h
    obtain ⟨-, rfl⟩ := h
    exact ⟨by simp [hc], fun u d hd => hd⟩
  | none =>
    rw [hc] at h
    cases hcodec : codecOf t TypeCodecMap.empty with
    | ok c0 =>
      rw [hcodec] at h
      simp only [Except.ok.injEq, Prod.mk.injEq] at h
      obtain ⟨rfl, rfl⟩ := h
      constructor
      · simp [storeCachedCodec, TypeCodecMap.insert]
      · intro u d hd
        by_cases hu : u = t
        · subst hu
          rw [hc] at hd
          cases hd
        · simpa [storeCachedCodec, TypeCodecMap.insert, hu] using hd
    | error e =>
      rw [hcodec] at h
      cases h

theorem claim_C7_witness :
    ((storeCachedCodec .bool TypeCodecMap.empty .boolC) .bool).isSome ∧
      ∀ u d, TypeCodecMap.empty u = some d →
        (storeCachedCodec .bool TypeCodecMap.empty .boolC) u = some d :=
  claim_C7 .bool TypeCodecMap.empty .boolC _ rfl

/-- Claim C9: `inlined t` holds exactly when `t` is a pointer type, a map
type, or a struct with exactly one field whose own type is inlinable
(recursively); every other kind yields `false`. -/
theorem claim_C9 (t : GoType) :
    inlined t = true ↔
      ((∃ e, t = .ptr e) ∨ (∃ k v, t = .map k v) ∨
        (∃ f, t = .struct (.cons f .nil) ∧ inlined f = true)) := by
  constructor
  · intro h
    cases t with
    | ptr e => exact Or.inl ⟨e, rfl⟩
    | map k v => exact Or.inr (Or.inl ⟨k, v, rfl⟩)
    | struct fs =>
      cases fs with
      | nil => simp [inlined] at h
      | cons f rest =>
        cases rest with
        | nil => exact Or.inr (Or.inr ⟨f, rfl, h⟩)
        | cons g r2 => simp [inlined] at h
    | bool => simp [inlined] at h
    | int => simp [inlined] at h
    | int8 => simp [inlined] at h
    | int16 => simp [inlined] at h
    | int32 => simp [inlined] at h
    | int64 => simp [inlined] at h
    | uint => simp [inlined] at h
    | uint8 => simp [inlined] at h
    | uint16 => simp [inlined] at h
    | uint32 => simp [inlined] at h
    | uint64 => simp [inlined] at h
    | float32 => simp [inlined] at h
    | float64 => simp [inlined] at h
    | string => simp [inlined] at h
    | chan => simp [inlined] at h
    | func => simp [inlined] at h
    | iface => simp [inlined] at h
    | array e n => simp [inlined] at h
    | slice e => simp [inlined] at h
  · rintro (⟨e, rfl⟩ | ⟨k, v, rfl⟩ | ⟨f, rfl, hf⟩)
    · rfl
    · rfl
    · simpa [inlined] using hf

/-- Claim C10: the four wire type codes used in tags are exactly the
protobuf-compatible values varint = 0, fixed64 = 1, varlen = 2,
fixed32 = 5. -/
theorem claim_C10 :
    WireType.code .varint = 0 ∧ WireType.code .fixed64 = 1 ∧
      WireType.code .varlen = 2 ∧ WireType.code .fixed32 = 5 :=
  ⟨rfl, rfl, rfl, rfl⟩

end Build

namespace Wire

theorem varintSize_eq_length (n : Nat) : varintSize n = (varintEnc n).length := by
  induction n using Nat.strong_induction_on with
  | _ n ih =>
    rw [varintSize, varintEnc]
    by_cases h : n < 128
    · simp [h]
    · simp only [h, if_false, List.length_cons]
      rw [ih (n / 128) (Nat.div_lt_self (by omega) (by omega))]
      omega

theorem varintEnc_ne_nil (n : Nat) : varintEnc n ≠ [] := by
  rw [varintEnc]
  by_cases h : n < 128 <;> simp [h]

theorem varintEnc_length_pos (n : Nat) : 0 < (varintEnc n).length :=
  List.length_pos.mpr (varintEnc_ne_nil n)

/-- The varint encoding of `n` has at most `k` bytes when `n < 128 ^ k`. -/
theorem varintEnc_length_le (n k : Nat) (hk : 0 < k) (h : n < 128 ^ k) :
    (varintEnc n).length ≤ k := by
  induction k generalizing n with
  | zero => omega
  | succ k ih =>
    rw [varintEnc]
    by_cases hn : n < 128
    · simp [hn]
    · simp only [hn, if_false, List.length_cons]
      have hk0 : 0 < k := by
        rcases Nat.eq_zero_or_pos k with h0 | h0
        · subst h0; simp [pow_succ] at h; omega
        · exact h0
      have hdiv : n / 128 < 128 ^ k := by
        rw [Nat.div_lt_iff_lt_mul (by omega)]
        calc n < 128 ^ (k + 1) := h
        _ = 128 ^ k * 128 := by ring
      have := ih hk0 (n := n / 128) hdiv
      omega

/-- A 64-bit value's varint encoding fits in 10 bytes. -/
theorem varintEnc_length_le_ten (n : Nat) (h : n < 2 ^ 64) :
    (varintEnc n).length ≤ 10 := by
  apply varintEnc_length_le n 10 (by omega)
  calc n < 2 ^ 64 := h
  _ < 128 ^ 10 := by norm_num

/-- Varint round trip: decoding the encoding of `n` (followed by anything)
yields `n` and consumes exactly the encoding, provided the byte limit
admits the encoding's length. -/
theorem varintDec_enc (n : Nat) (r : List Nat) (limit : Nat)
    (h : (varintEnc n).length ≤ limit) :
    varintDec limit (varintEnc n ++ r) = some (n, (varintEnc n).length) := by
  induction n using Nat.strong_induction_on generalizing r limit with
  | _ n ih =>
    rw [varintEnc] at h ⊢
    by_cases hn : n < 128
    · simp only [hn, if_true] at h ⊢
      match limit, h with
      | l + 1, _ =>
        simp [varintDec, hn]
    · simp only [hn, if_false, List.length_cons] at h ⊢
      match limit, h with
      | l + 1, h =>
        have hrec := ih (n / 128) (Nat.div_lt_self (by omega) (by omega)) r l (by omega)
        simp only [List.cons_append, varintDec, show ¬(n % 128 + 128 < 128) by omega,
          if_false, List.append_eq, hrec]
        have hmod : n % 128 + 128 - 128 + 128 * (n / 128) = n := by
          have := Nat.mod_add_div n 128
          omega
        rw [hmod]

theorem le4_length (n : Nat) : (le4 n).length = 4 := rfl

theorem le8_length (n : Nat) : (le8 n).length = 8 := rfl

theorem varlenEnc_length (bs : List Nat) :
    (varlenEnc bs).length = varintSize bs.length + bs.length := by
  simp [varlenEnc, varintSize_eq_length]

mutual

/-- The arithmetic field size equals the field encoding's length. -/
theorem fieldSize_eq (num : Nat) (v : Value) :
    fieldSize num v = (fieldEnc num v).length := by
  rw [fieldSize, fieldEnc]
  by_cases h : isZero v
  · simp [h]
  · simp [h, taggedSize_eq num v]
termination_by (sizeOf v, 1)

/-- The arithmetic tagged size equals the tagged encoding's length. -/
theorem taggedSize_eq (num : Nat) (v : Value) :
    taggedSize num v = (fieldTagged num v).length := by
  cases v with
  | vbool b => simp [taggedSize, fieldTagged, varintSize_eq_length]
  | vuint n => simp [taggedSize, fieldTagged, varintSize_eq_length]
  | vint i => simp [taggedSize, fieldTagged, varintSize_eq_length]
  | vfix32 n => simp [taggedSize, fieldTagged, varintSize_eq_length, le4]
  | vfix64 n => simp [taggedSize, fieldTagged, varintSize_eq_length, le8]
  | vbytes bs =>
    simp [taggedSize, fieldTagged, varintSize_eq_length, varlenEnc]
    omega
  | vnil => simp [taggedSize, fieldTagged]
  | vsome w => simp [taggedSize, fieldTagged, taggedSize_eq num w]
  | vmap es => simp [taggedSize, fieldTagged, entriesSize_eq num es]
  | vstruct fs =>
    cases fs with
    | nil =>
      simp [taggedSize, fieldTagged, varintSize_eq_length, varlenEnc,
        bodySize_eq VFields.nil]
      omega
    | fcons n1 w rest =>
      cases rest with
      | nil =>
        by_cases hw : inlinedV w
        · simp [taggedSize, fieldTagged, hw, taggedSize_eq num w]
        · simp [taggedSize, fieldTagged, hw, varintSize_eq_length, varlenEnc,
            bodySize_eq (VFields.fcons n1 w VFields.nil)]
          omega
      | fcons n2 w2 r2 =>
        simp [taggedSize, fieldTagged, varintSize_eq_length, varlenEnc,
          bodySize_eq (VFields.fcons n1 w (VFields.fcons n2 w2 r2))]
        omega
termination_by (sizeOf v, 0)

/-- The arithmetic body size equals the body encoding's length. -/
theorem bodySize_eq (fs : VFields) : bodySize fs = (bodyEnc fs).length := by
  cases fs with
  | nil => simp [bodySize, bodyEnc]
  | fcons num v rest =>
    simp [bodySize, bodyEnc, fieldSize_eq num v, bodySize_eq rest]
termination_by (sizeOf fs, 2)

/-- The arithmetic entries size equals the entries encoding's length. -/
theorem entriesSize_eq (num : Nat) (es : VEntries) :
    entriesSize num es = (entriesEnc num es).length := by
  cases es with
  | nil => simp [entriesSize, entriesEnc]
  | econs k w rest =>
    simp [entriesSize, entriesEnc, varintSize_eq_length, varlenEnc,
      fieldSize_eq 1 k, fieldSize_eq 2 w, entriesSize_eq num rest]
    omega
termination_by (sizeOf es, 2)

/-- The arithmetic top-level size equals the top-level encoding's
length. -/
theorem sizeVal_eq (v : Value) : sizeVal v = (payloadEnc v).length := by
  rw [sizeVal, payloadEnc]
  by_cases h : isZero v
  · simp [h]
  · simp [h, coreSize_eq v]
termination_by (sizeOf v, 1)

/-- The arithmetic core size equals the core encoding's length. -/
theorem coreSize_eq (v : Value) : coreSize v = (payloadCore v).length := by
  cases v with
  | vbool b => simp [coreSize, payloadCore, varintSize_eq_length]
  | vuint n => simp [coreSize, payloadCore, varintSize_eq_length]
  | vint i => simp [coreSize, payloadCore, varintSize_eq_length]
  | vfix32 n => simp [coreSize, payloadCore, le4]
  | vfix64 n => simp [coreSize, payloadCore, le8]
  | vbytes bs =>
    simp [coreSize, payloadCore, varintSize_eq_length, varlenEnc]
  | vstruct fs => simp [coreSize, payloadCore, bodySize_eq fs]
  | vnil => simp [coreSize, payloadCore]
  | vsome w => simp [coreSize, payloadCore, sizeVal_eq w]
  | vmap es => simp [coreSize, payloadCore, entriesSize_eq 1 es]
termination_by (sizeOf v, 0)

end

/-- Claim C2: for every value of a supported type, `Size v` equals the
length of the byte slice returned by `Marshal v`: `Marshal` allocates
exactly `Size v` bytes and fills them completely. -/
theorem claim_C2 (v : Value) : Size v = (Marshal v).length := by
  simpa [Size, Marshal] using sizeVal_eq v

theorem le4Dec_enc (n : Nat) (r : List Nat) (h : n < 2 ^ 32) :
    le4Dec (le4 n ++ r) = some (n, 4) := by
  simp only [le4, le4Dec, List.cons_append, List.nil_append, Option.some.injEq,
    Prod.mk.injEq]
  norm_num
  omega

theorem le8Dec_enc (n : Nat) (r : List Nat) (h : n < 2 ^ 64) :
    le8Dec (le8 n ++ r) = some (n, 8) := by
  simp only [le8, le8Dec, List.cons_append, List.nil_append, Option.some.injEq,
    Prod.mk.injEq]
  norm_num
  omega

theorem varlenDec_enc (bs : List Nat) (r : List Nat) (h : bs.length < 2 ^ 64) :
    varlenDec (varlenEnc bs ++ r) =
      some (bs, (varintEnc bs.length).length + bs.length) := by
  have h10 : (varintEnc bs.length).length ≤ 10 := varintEnc_length_le_ten _ h
  simp only [varlenEnc, List.append_assoc, varlenDec,
    varintDec_enc bs.length (bs ++ r) 10 h10]
  rw [List.drop_left]
  have hle : bs.length ≤ (bs ++ r).length := by simp
  simp [hle, List.take_left]

theorem intToU64_lt (i : Int) (_h1 : -(2 ^ 63) ≤ i) (_h2 : i < 2 ^ 63) :
    intToU64 i < 2 ^ 64 := by
  unfold intToU64
  omega

theorem u64ToInt_intToU64 (i : Int) (h1 : -(2 ^ 63) ≤ i) (h2 : i < 2 ^ 63) :
    u64ToInt (intToU64 i) = i := by
  unfold u64ToInt intToU64
  by_cases hpos : 0 ≤ i
  · have hmod : i % (2 ^ 64 : Int) = i := by omega
    rw [hmod, if_pos (by omega)]
    omega
  · have hmod : i % (2 ^ 64 : Int) = i + 2 ^ 64 := by omega
    rw [hmod, if_neg (by omega)]
    omega

theorem wtV_lt (v : Value) : wtV v < 8 := by
  cases v with
  | vstruct fs =>
    cases fs with
    | nil => simp [wtV, Build.WireType.code]
    | fcons n1 w rest =>
      cases rest with
      | nil =>
        by_cases hw : inlinedV w
        · simpa [wtV, hw] using wtV_lt w
        · simp [wtV, hw, Build.WireType.code]
      | fcons n2 w2 r2 => simp [wtV, Build.WireType.code]
  | vsome w => simpa [wtV] using wtV_lt w
  | vbool b => simp [wtV, Build.WireType.code]
  | vuint n => simp [wtV, Build.WireType.code]
  | vint i => simp [wtV, Build.WireType.code]
  | vfix32 n => simp [wtV, Build.WireType.code]
  | vfix64 n => simp [wtV, Build.WireType.code]
  | vbytes bs => simp [wtV, Build.WireType.code]
  | vnil => simp [wtV, Build.WireType.code]
  | vmap es => simp [wtV, Build.WireType.code]
termination_by sizeOf v

mutual

/-- A well-formed zero-tested value is the zero value of its shape. -/
theorem eq_zeroVal_of_isZero (t : Ty) (v : Value) (hwf : wf t v = true)
    (hz : isZero v = true) : v = zeroVal t := by
  cases t with
  | tbool => cases v <;> simp_all [wf, isZero, zeroVal]
  | tuint => cases v <;> simp_all [wf, isZero, zeroVal]
  | tint => cases v <;> simp_all [wf, isZero, zeroVal]
  | tfix32 => cases v <;> simp_all [wf, isZero, zeroVal]
  | tfix64 => cases v <;> simp_all [wf, isZero, zeroVal]
  | tbytes => cases v <;> simp_all [wf, isZero, zeroVal, List.isEmpty_iff]
  | tarray n =>
    cases v <;> (simp_all [wf, isZero, zeroVal, List.isEmpty_iff]; try omega)
  | tstruct fs =>
    cases v with
    | vstruct vf =>
      simp only [wf, Bool.and_eq_true] at hwf
      simp only [isZero] at hz
      simp [zeroVal, eq_zeroFields_of_fieldsZero fs vf hwf.1 hz]
    | vbool b => simp [wf] at hwf
    | vuint n => simp [wf] at hwf
    | vint i => simp [wf] at hwf
    | vfix32 n => simp [wf] at hwf
    | vfix64 n => simp [wf] at hwf
    | vbytes bs => simp [wf] at hwf
    | vnil => simp [wf] at hwf
    | vsome w => simp [wf] at hwf
    | vmap es => simp [wf] at hwf
  | tptr te => cases v <;> simp_all [wf, isZero, zeroVal]
  | tmap kt vt =>
    cases v with
    | vmap es => cases es <;> simp_all [wf, isZero, zeroVal, VEntries.isEmpty]
    | vbool b => simp [wf] at hwf
    | vuint n => simp [wf] at hwf
    | vint i => simp [wf] at hwf
    | vfix32 n => simp [wf] at hwf
    | vfix64 n => simp [wf] at hwf
    | vbytes bs => simp [wf] at hwf
    | vnil => simp [wf] at hwf
    | vsome w => simp [wf] at hwf
    | vstruct vf => simp [wf] at hwf
termination_by (sizeOf v, 0)

/-- Field-list version of `eq_zeroVal_of_isZero`. -/
theorem eq_zeroFields_of_fieldsZero (tf : TyFields) (vf : VFields)
    (hwf : wfFields tf vf = true) (hz : fieldsZero vf = true) :
    vf = zeroFields tf := by
  cases tf with
  | nil =>
    cases vf with
    | nil => rfl
    | fcons m v vr => simp [wfFields] at hwf
  | fcons n t tr =>
    cases vf with
    | nil => simp [wfFields] at hwf
    | fcons m v vr =>
      simp only [wfFields, Bool.and_eq_true, beq_iff_eq] at hwf
      obtain ⟨⟨hnm, hwv⟩, hwr⟩ := hwf
      simp only [fieldsZero, Bool.and_eq_true] at hz
      subst hnm
      rw [zeroFields, ← eq_zeroVal_of_isZero t v hwv hz.1,
        ← eq_zeroFields_of_fieldsZero tr vr hwr hz.2]
termination_by (sizeOf vf, 1)

end

/-- On well-formed values the value shape determines the type's inlining
decision. -/
theorem inlinedV_eq_inlinedTy (t : Ty) (v : Value) (hwf : wf t v = true) :
    inlinedV v = inlinedTy t := by
  cases t with
  | tbool => cases v <;> simp_all [wf, inlinedV, inlinedTy]
  | tuint => cases v <;> simp_all [wf, inlinedV, inlinedTy]
  | tint => cases v <;> simp_all [wf, inlinedV, inlinedTy]
  | tfix32 => cases v <;> simp_all [wf, inlinedV, inlinedTy]
  | tfix64 => cases v <;> simp_all [wf, inlinedV, inlinedTy]
  | tbytes => cases v <;> simp_all [wf, inlinedV, inlinedTy]
  | tarray n => cases v <;> simp_all [wf, inlinedV, inlinedTy]
  | tptr te => cases v <;> simp_all [wf, inlinedV, inlinedTy]
  | tmap kt vt => cases v <;> simp_all [wf, inlinedV, inlinedTy]
  | tstruct fs =>
    cases v with
    | vstruct vf =>
      simp only [wf, Bool.and_eq_true] at hwf
      cases fs with
      | nil =>
        cases vf with
        | nil => simp [inlinedV, inlinedTy]
        | fcons m v vr => simp [wfFields] at hwf
      | fcons n t1 tr =>
        cases vf with
        | nil => simp [wfFields] at hwf
        | fcons m w vr =>
          obtain ⟨hf, -⟩ := hwf
          simp only [wfFields, Bool.and_eq_true, beq_iff_eq] at hf
          obtain ⟨⟨hnm, hwv⟩, hwr⟩ := hf
          cases tr with
          | nil =>
            cases vr with
            | nil => simpa [inlinedV, inlinedTy] using
                inlinedV_eq_inlinedTy t1 w hwv
            | fcons m2 w2 vr2 => simp [wfFields] at hwr
          | fcons n2 t2 tr2 =>
            cases vr with
            | nil => simp [wfFields] at hwr
            | fcons m2 w2 vr2 => simp [inlinedV, inlinedTy]
    | vbool b => simp [wf] at hwf
    | vuint n => simp [wf] at hwf
    | vint i => simp [wf] at hwf
    | vfix32 n => simp [wf] at hwf
    | vfix64 n => simp [wf] at hwf
    | vbytes bs => simp [wf] at hwf
    | vnil => simp [wf] at hwf
    | vsome w => simp [wf] at hwf
    | vmap es => simp [wf] at hwf
termination_by sizeOf v

/-- Looking up a zero-fields target yields the zero value of the field's
type. -/
theorem getV_zeroFields (fs : TyFields) (num : Nat) (ty : Ty)
    (h : getTy fs num = some ty) :
    getV (zeroFields fs) num = some (zeroVal ty) := by
  cases fs with
  | nil => simp [getTy] at h
  | fcons n t tr =>
    by_cases hn : num = n
    · subst hn
      simp only [getTy, if_true, eq_self_iff_true, if_pos, Option.some.injEq] at h
      subst h
      simp [zeroFields, getV]
    · simp only [getTy, if_neg hn] at h
      simpa [zeroFields, getV, hn] using getV_zeroFields tr num ty h
termination_by sizeOf fs

theorem getV_setV_self (cur : VFields) (num : Nat) (v old : Value)
    (h : getV cur num = some old) : getV (setV cur num v) num = some v := by
  cases cur with
  | nil => simp [getV] at h
  | fcons n w r =>
    by_cases hn : num = n
    · subst hn
      simp [setV, getV]
    · simp only [getV, if_neg hn] at h
      simp [setV, getV, hn, getV_setV_self r num v old h]
termination_by sizeOf cur

theorem getV_setV_other (cur : VFields) (num num2 : Nat) (v : Value)
    (h : num2 ≠ num) : getV (setV cur num v) num2 = getV cur num2 := by
  cases cur with
  | nil => simp [setV]
  | fcons n w r =>
    by_cases hn : num = n
    · subst hn
      simp [setV, getV, h]
    · by_cases hn2 : num2 = n
      · subst hn2
        simp [setV, hn, getV]
      · simp [setV, hn, getV, hn2, getV_setV_other r num num2 v h]
termination_by sizeOf cur

theorem setV_self (cur : VFields) (num : Nat) (v : Value)
    (h : getV cur num = some v) : setV cur num v = cur := by
  cases cur with
  | nil => simp [setV]
  | fcons n w r =>
    by_cases hn : num = n
    · subst hn
      simp only [getV, if_true, eq_self_iff_true, if_pos, Option.some.injEq] at h
      simp [setV, h]
    · simp only [getV, if_neg hn] at h
      simp [setV, hn, setV_self r num v h]
termination_by sizeOf cur

theorem getTy_of_not_numMem (fs : TyFields) (num : Nat)
    (h : numMem num fs = false) : getTy fs num = none := by
  cases fs with
  | nil => rfl
  | fcons n t tr =>
    simp only [numMem, Bool.or_eq_false_iff, beq_eq_false_iff_ne] at h
    simp [getTy, h.1, getTy_of_not_numMem tr num h.2]
termination_by sizeOf fs

theorem wf_struct_elim (fs : TyFields) (v : Value)
    (h : wf (.tstruct fs) v = true) :
    ∃ vf, v = .vstruct vf ∧ wfFields fs vf = true ∧
      (bodyEnc vf).length < 2 ^ 64 := by
  cases v <;> simp_all [wf]

theorem wf_map_elim (kt vt : Ty) (v : Value)
    (h : wf (.tmap kt vt) v = true) :
    ∃ es, v = .vmap es ∧ wfEntries kt vt es = true ∧ uniqueKeys es = true := by
  cases v <;> simp_all [wf]

theorem wf_ptr_elim (te : Ty) (v : Value) (h : wf (.tptr te) v = true) :
    v = .vnil ∨ ∃ w, v = .vsome w ∧ wf te w = true := by
  cases v <;> simp_all [wf]

theorem wfFields_nil_elim (vf : VFields) (h : wfFields .nil vf = true) :
    vf = .nil := by
  cases vf <;> simp_all [wfFields]

theorem wfFields_cons_elim (n : Nat) (t : Ty) (tr : TyFields) (vf : VFields)
    (h : wfFields (.fcons n t tr) vf = true) :
    ∃ w vr, vf = .fcons n w vr ∧ wf t w = true ∧ wfFields tr vr = true := by
  cases vf with
  | nil => simp [wfFields] at h
  | fcons m w vr =>
    simp only [wfFields, Bool.and_eq_true, beq_iff_eq] at h
    exact ⟨w, vr, by rw [h.1.1], h.1.2, h.2⟩

theorem keyMem_append (k : Value) (a b : VEntries) :
    keyMem k (appendEntries a b) = (keyMem k a || keyMem k b) := by
  cases a with
  | nil => simp [appendEntries, keyMem]
  | econs k0 v0 r =>
    simp [appendEntries, keyMem, keyMem_append k r b, Bool.or_assoc]
termination_by sizeOf a

theorem appendEntries_snoc (M : VEntries) (k w : Value) (es : VEntries) :
    appendEntries (appendEntries M (.econs k w .nil)) es =
      appendEntries M (.econs k w es) := by
  cases M with
  | nil => simp [appendEntries]
  | econs k0 v0 r => simp [appendEntries, appendEntries_snoc r k w es]
termination_by sizeOf M

theorem insertEntry_fresh (es : VEntries) (k w : Value)
    (h : keyMem k es = false) :
    insertEntry es k w = appendEntries es (.econs k w .nil) := by
  cases es with
  | nil => simp [insertEntry, appendEntries]
  | econs k0 v0 r =>
    simp only [keyMem, Bool.or_eq_false_iff, beq_eq_false_iff_ne] at h
    simp [insertEntry, h.1, appendEntries, insertEntry_fresh r k w h.2]
termination_by sizeOf es

theorem uniqueKeys_append_head (M : VEntries) (k w : Value) (es : VEntries)
    (h : uniqueKeys (appendEntries M (.econs k w es)) = true) :
    keyMem k M = false := by
  cases M with
  | nil => rfl
  | econs k0 v0 r =>
    simp only [appendEntries, uniqueKeys, Bool.and_eq_true,
      Bool.not_eq_true'] at h
    obtain ⟨h1, h2⟩ := h
    rw [keyMem_append] at h1
    simp only [Bool.or_eq_false_iff, keyMem] at h1
    obtain ⟨-, h1b⟩ := h1
    simp only [Bool.or_eq_false_iff, beq_eq_false_iff_ne] at h1b
    have hk : keyMem k r = false := uniqueKeys_append_head r k w es h2
    simp [keyMem, hk]
    intro hkk
    exact h1b.1 (by rw [hkk])
termination_by sizeOf M

theorem good_mapTys (t : Ty) (hg : good t = true) (hr : resolvesMap t = true) :
    good (mapKeyTy t) = true ∧ good (mapValTy t) = true := by
  cases t with
  | tmap kt vt =>
    simp only [good, Bool.and_eq_true] at hg
    exact ⟨by simpa [mapKeyTy] using hg.1, by simpa [mapValTy] using hg.2⟩
  | tstruct fs =>
    cases fs with
    | nil => simp [resolvesMap] at hr
    | fcons n1 t1 tr =>
      cases tr with
      | nil =>
        simp only [resolvesMap, Bool.and_eq_true] at hr
        simp only [good, goodFields, Bool.and_eq_true] at hg
        have hrec := good_mapTys t1 hg.1.1.2 hr.2
        exact ⟨by simpa [mapKeyTy] using hrec.1, by simpa [mapValTy] using hrec.2⟩
      | fcons n2 t2 tr2 => simp [resolvesMap] at hr
  | tbool => simp [resolvesMap] at hr
  | tuint => simp [resolvesMap] at hr
  | tint => simp [resolvesMap] at hr
  | tfix32 => simp [resolvesMap] at hr
  | tfix64 => simp [resolvesMap] at hr
  | tbytes => simp [resolvesMap] at hr
  | tarray n => simp [resolvesMap] at hr
  | tptr te => simp [resolvesMap] at hr
termination_by sizeOf t

theorem mkMapVal_entriesOf (t : Ty) (v : Value) (hr : resolvesMap t = true)
    (hwf : wf t v = true) : v = mkMapVal t (entriesOf v) := by
  cases t with
  | tmap kt vt =>
    obtain ⟨es, rfl, -, -⟩ := wf_map_elim kt vt v hwf
    simp [mkMapVal, entriesOf]
  | tstruct fs =>
    cases fs with
    | nil => simp [resolvesMap] at hr
    | fcons n1 t1 tr =>
      cases tr with
      | nil =>
        simp only [resolvesMap, Bool.and_eq_true] at hr
        obtain ⟨vf, rfl, hvf, -⟩ := wf_struct_elim _ v hwf
        obtain ⟨w, vr, rfl, hw, hvr⟩ := wfFields_cons_elim _ _ _ _ hvf
        have hnil := wfFields_nil_elim vr hvr
        subst hnil
        simp only [entriesOf, mkMapVal]
        rw [← mkMapVal_entriesOf t1 w hr.2 hw]
      | fcons n2 t2 tr2 => simp [resolvesMap] at hr
  | tbool => simp [resolvesMap] at hr
  | tuint => simp [resolvesMap] at hr
  | tint => simp [resolvesMap] at hr
  | tfix32 => simp [resolvesMap] at hr
  | tfix64 => simp [resolvesMap] at hr
  | tbytes => simp [resolvesMap] at hr
  | tarray n => simp [resolvesMap] at hr
  | tptr te => simp [resolvesMap] at hr
termination_by sizeOf v

theorem entries_wf_of_wf (t : Ty) (v : Value) (hr : resolvesMap t = true)
    (hwf : wf t v = true) :
    wfEntries (mapKeyTy t) (mapValTy t) (entriesOf v) = true ∧
      uniqueKeys (entriesOf v) = true := by
  cases t with
  | tmap kt vt =>
    obtain ⟨es, rfl, hes, hu⟩ := wf_map_elim kt vt v hwf
    exact ⟨by simpa [mapKeyTy, mapValTy, entriesOf] using hes,
      by simpa [entriesOf] using hu⟩
  | tstruct fs =>
    cases fs with
    | nil => simp [resolvesMap] at hr
    | fcons n1 t1 tr =>
      cases tr with
      | nil =>
        simp only [resolvesMap, Bool.and_eq_true] at hr
        obtain ⟨vf, rfl, hvf, -⟩ := wf_struct_elim _ v hwf
        obtain ⟨w, vr, rfl, hw, hvr⟩ := wfFields_cons_elim _ _ _ _ hvf
        have hnil := wfFields_nil_elim vr hvr
        subst hnil
        have hrec := entries_wf_of_wf t1 w hr.2 hw
        exact ⟨by simpa [mapKeyTy, mapValTy, entriesOf] using hrec.1,
          by simpa [entriesOf] using hrec.2⟩
      | fcons n2 t2 tr2 => simp [resolvesMap] at hr
  | tbool => simp [resolvesMap] at hr
  | tuint => simp [resolvesMap] at hr
  | tint => simp [resolvesMap] at hr
  | tfix32 => simp [resolvesMap] at hr
  | tfix64 => simp [resolvesMap] at hr
  | tbytes => simp [resolvesMap] at hr
  | tarray n => simp [resolvesMap] at hr
  | tptr te => simp [resolvesMap] at hr
termination_by sizeOf v

theorem zeroVal_resolvesMap (t : Ty) (hr : resolvesMap t = true) :
    zeroVal t = mkMapVal t .nil := by
  cases t with
  | tmap kt vt => rfl
  | tstruct fs =>
    cases fs with
    | nil => simp [resolvesMap] at hr
    | fcons n1 t1 tr =>
      cases tr with
      | nil =>
        simp only [resolvesMap, Bool.and_eq_true] at hr
        simp [zeroVal, zeroFields, mkMapVal, zeroVal_resolvesMap t1 hr.2]
      | fcons n2 t2 tr2 => simp [resolvesMap] at hr
  | tbool => simp [resolvesMap] at hr
  | tuint => simp [resolvesMap] at hr
  | tint => simp [resolvesMap] at hr
  | tfix32 => simp [resolvesMap] at hr
  | tfix64 => simp [resolvesMap] at hr
  | tbytes => simp [resolvesMap] at hr
  | tarray n => simp [resolvesMap] at hr
  | tptr te => simp [resolvesMap] at hr
termination_by sizeOf t

theorem isZero_resolvesMap (t : Ty) (v : Value) (hr : resolvesMap t = true)
    (hwf : wf t v = true) :
    isZero v = VEntries.isEmpty (entriesOf v) := by
  cases t with
  | tmap kt vt =>
    obtain ⟨es, rfl, -, -⟩ := wf_map_elim kt vt v hwf
    simp [isZero, entriesOf]
  | tstruct fs =>
    cases fs with
    | nil => simp [resolvesMap] at hr
    | fcons n1 t1 tr =>
      cases tr with
      | nil =>
        simp only [resolvesMap, Bool.and_eq_true] at hr
        obtain ⟨vf, rfl, hvf, -⟩ := wf_struct_elim _ v hwf
        obtain ⟨w, vr, rfl, hw, hvr⟩ := wfFields_cons_elim _ _ _ _ hvf
        have hnil := wfFields_nil_elim vr hvr
        subst hnil
        simp [isZero, fieldsZero, entriesOf, isZero_resolvesMap t1 w hr.2 hw]
      | fcons n2 t2 tr2 => simp [resolvesMap] at hr
  | tbool => simp [resolvesMap] at hr
  | tuint => simp [resolvesMap] at hr
  | tint => simp [resolvesMap] at hr
  | tfix32 => simp [resolvesMap] at hr
  | tfix64 => simp [resolvesMap] at hr
  | tbytes => simp [resolvesMap] at hr
  | tarray n => simp [resolvesMap] at hr
  | tptr te => simp [resolvesMap] at hr
termination_by sizeOf v

theorem fieldTagged_entriesEnc (num : Nat) (t : Ty) (v : Value)
    (hr : resolvesMap t = true) (hwf : wf t v = true) :
    fieldTagged num v = entriesEnc num (entriesOf v) := by
  cases t with
  | tmap kt vt =>
    obtain ⟨es, rfl, -, -⟩ := wf_map_elim kt vt v hwf
    simp [fieldTagged, entriesOf]
  | tstruct fs =>
    cases fs with
    | nil => simp [resolvesMap] at hr
    | fcons n1 t1 tr =>
      cases tr with
      | nil =>
        simp only [resolvesMap, Bool.and_eq_true] at hr
        obtain ⟨vf, rfl, hvf, -⟩ := wf_struct_elim _ v hwf
        obtain ⟨w, vr, rfl, hw, hvr⟩ := wfFields_cons_elim _ _ _ _ hvf
        have hnil := wfFields_nil_elim vr hvr
        subst hnil
        have hiw : inlinedV w = true := by
          rw [inlinedV_eq_inlinedTy t1 w hw, hr.1]
        simp [fieldTagged, hiw, entriesOf,
          fieldTagged_entriesEnc num t1 w hr.2 hw]
      | fcons n2 t2 tr2 => simp [resolvesMap] at hr
  | tbool => simp [resolvesMap] at hr
  | tuint => simp [resolvesMap] at hr
  | tint => simp [resolvesMap] at hr
  | tfix32 => simp [resolvesMap] at hr
  | tfix64 => simp [resolvesMap] at hr
  | tbytes => simp [resolvesMap] at hr
  | tarray n => simp [resolvesMap] at hr
  | tptr te => simp [resolvesMap] at hr
termination_by sizeOf v

theorem fieldTagged_solid (num : Nat) (t : Ty) (v : Value)
    (hni : inlinedTy t = false) (hwf : wf t v = true) :
    fieldTagged num v = varintEnc (num * 8 + wtV v) ++ fieldPayload v := by
  cases t with
  | tbool => cases v <;> simp_all [wf, fieldTagged, wtV, fieldPayload]
  | tuint => cases v <;> simp_all [wf, fieldTagged, wtV, fieldPayload]
  | tint => cases v <;> simp_all [wf, fieldTagged, wtV, fieldPayload]
  | tfix32 => cases v <;> simp_all [wf, fieldTagged, wtV, fieldPayload]
  | tfix64 => cases v <;> simp_all [wf, fieldTagged, wtV, fieldPayload]
  | tbytes => cases v <;> simp_all [wf, fieldTagged, wtV, fieldPayload]
  | tarray n => cases v <;> simp_all [wf, fieldTagged, wtV, fieldPayload]
  | tptr te => simp [inlinedTy] at hni
  | tmap kt vt => simp [inlinedTy] at hni
  | tstruct fs =>
    obtain ⟨vf, rfl, hvf, -⟩ := wf_struct_elim _ v hwf
    cases fs with
    | nil =>
      have hnil := wfFields_nil_elim vf hvf
      subst hnil
      simp [fieldTagged, wtV, fieldPayload]
    | fcons n1 t1 tr =>
      obtain ⟨w, vr, rfl, hw, hvr⟩ := wfFields_cons_elim _ _ _ _ hvf
      cases tr with
      | nil =>
        have hnil := wfFields_nil_elim vr hvr
        subst hnil
        have ht1 : inlinedTy t1 = false := by simpa [inlinedTy] using hni
        have hiw : inlinedV w = false := by
          rw [inlinedV_eq_inlinedTy t1 w hw, ht1]
        simp [fieldTagged, wtV, fieldPayload, hiw]
      | fcons n2 t2 tr2 =>
        obtain ⟨w2, vr2, rfl, hw2, hvr2⟩ := wfFields_cons_elim _ _ _ _ hvr
        simp [fieldTagged, wtV, fieldPayload]

theorem fieldTagged_inline (num : Nat) (t : Ty) (v : Value)
    (hg : good t = true) (hi : inlinedTy t = true) (hr : resolvesMap t = false)
    (hwf : wf t v = true) (hnz : isZero v = false) :
    fieldTagged num v = varintEnc (num * 8 + wtV v) ++ fieldPayload v := by
  cases t with
  | tptr te =>
    rcases wf_ptr_elim te v hwf with rfl | ⟨w, rfl, hw⟩
    · simp [isZero] at hnz
    · simp only [good, Bool.and_eq_true, Bool.not_eq_true'] at hg
      have := fieldTagged_solid num te w hg.2 hw
      simp only [fieldTagged, wtV, fieldPayload]
      exact this
  | tmap kt vt => simp [resolvesMap] at hr
  | tstruct fs =>
    cases fs with
    | nil => simp [inlinedTy] at hi
    | fcons n1 t1 tr =>
      cases tr with
      | nil =>
        obtain ⟨vf, rfl, hvf, -⟩ := wf_struct_elim _ v hwf
        obtain ⟨w, vr, rfl, hw, hvr⟩ := wfFields_cons_elim _ _ _ _ hvf
        have hnil := wfFields_nil_elim vr hvr
        subst hnil
        have ht1 : inlinedTy t1 = true := by simpa [inlinedTy] using hi
        have hr1 : resolvesMap t1 = false := by
          simpa [resolvesMap, ht1] using hr
        have hg1 : good t1 = true := by
          simp only [good, goodFields, Bool.and_eq_true] at hg
          exact hg.1.1.2
        have hnzw : isZero w = false := by
          simpa [isZero, fieldsZero] using hnz
        have hiw : inlinedV w = true := by
          rw [inlinedV_eq_inlinedTy t1 w hw, ht1]
        simp [fieldTagged, wtV, fieldPayload, hiw,
          fieldTagged_inline num t1 w hg1 ht1 hr1 hw hnzw]
      | fcons n2 t2 tr2 => simp [inlinedTy] at hi
  | tbool => simp [inlinedTy] at hi
  | tuint => simp [inlinedTy] at hi
  | tint => simp [inlinedTy] at hi
  | tfix32 => simp [inlinedTy] at hi
  | tfix64 => simp [inlinedTy] at hi
  | tbytes => simp [inlinedTy] at hi
  | tarray n => simp [inlinedTy] at hi
termination_by sizeOf v

theorem fieldTagged_ne_nil (num : Nat) (t : Ty) (v : Value)
    (hg : good t = true) (hwf : wf t v = true) (hnz : isZero v = false) :
    fieldTagged num v ≠ [] := by
  by_cases hr : resolvesMap t = true
  · rw [fieldTagged_entriesEnc num t v hr hwf]
    have hze := isZero_resolvesMap t v hr hwf
    rw [hnz] at hze
    cases hes : entriesOf v with
    | nil =>
      rw [hes] at hze
      simp [VEntries.isEmpty] at hze
    | econs k w r =>
      simp [entriesEnc, List.append_eq_nil, varintEnc_ne_nil]
  · by_cases hi : inlinedTy t = true
    · rw [fieldTagged_inline num t v hg hi (by simpa using hr) hwf hnz]
      simp [List.append_eq_nil, varintEnc_ne_nil]
    · rw [fieldTagged_solid num t v (by simpa using hi) hwf]
      simp [List.append_eq_nil, varintEnc_ne_nil]

theorem bodyEnc_ne_nil (tf : TyFields) (vf : VFields)
    (hgf : goodFields tf = true) (hwfF : wfFields tf vf = true)
    (hnz : fieldsZero vf = false) : bodyEnc vf ≠ [] := by
  cases tf with
  | nil =>
    have hnil := wfFields_nil_elim vf hwfF
    subst hnil
    simp [fieldsZero] at hnz
  | fcons n t tr =>
    obtain ⟨w, vr, rfl, hw, hvr⟩ := wfFields_cons_elim _ _ _ _ hwfF
    simp only [goodFields, Bool.and_eq_true] at hgf
    by_cases hz : isZero w = true
    · have hnzr : fieldsZero vr = false := by
        simpa [fieldsZero, hz] using hnz
      simpa [bodyEnc, fieldEnc, hz] using
        bodyEnc_ne_nil tr vr hgf.2 hvr hnzr
    · have hzf : isZero w = false := by simpa using hz
      have hne := fieldTagged_ne_nil n t w hgf.1.2 hw hzf
      simp [bodyEnc, fieldEnc, hzf, List.append_eq_nil, hne]
termination_by sizeOf vf

theorem payloadEnc_ne_nil (t : Ty) (v : Value) (hg : good t = true)
    (hwf : wf t v = true) (hnz : isZero v = false) (htop : topOk v = true) :
    payloadEnc v ≠ [] := by
  rw [payloadEnc, if_neg (by simp [hnz])]
  cases t with
  | tbool =>
    cases v <;> simp_all [wf, isZero, payloadCore, varintEnc_ne_nil]
  | tuint =>
    cases v <;> simp_all [wf, payloadCore, varintEnc_ne_nil]
  | tint =>
    cases v <;> simp_all [wf, payloadCore, varintEnc_ne_nil]
  | tfix32 =>
    cases v <;> simp_all [wf, payloadCore, le4]
  | tfix64 =>
    cases v <;> simp_all [wf, payloadCore, le8]
  | tbytes =>
    cases v <;>
      simp_all [wf, payloadCore, varlenEnc, List.append_eq_nil,
        varintEnc_ne_nil]
  | tarray n =>
    cases v <;>
      simp_all [wf, payloadCore, varlenEnc, List.append_eq_nil,
        varintEnc_ne_nil]
  | tstruct fs =>
    obtain ⟨vf, rfl, hvf, -⟩ := wf_struct_elim _ v hwf
    simp only [good, Bool.and_eq_true] at hg
    have hnzf : fieldsZero vf = false := by simpa [isZero] using hnz
    simpa [payloadCore] using bodyEnc_ne_nil fs vf hg.1 hvf hnzf
  | tmap kt vt =>
    obtain ⟨es, rfl, -, -⟩ := wf_map_elim kt vt v hwf
    cases es with
    | nil => simp [isZero, VEntries.isEmpty] at hnz
    | econs k w r =>
      simp [payloadCore, entriesEnc, List.append_eq_nil, varintEnc_ne_nil]
  | tptr te =>
    rcases wf_ptr_elim te v hwf with rfl | ⟨w, rfl, hw⟩
    · simp [isZero] at hnz
    · simp only [good, Bool.and_eq_true, Bool.not_eq_true'] at hg
      have hnzw : isZero w = false := by simpa [topOk] using htop
      have htopw : topOk w = true := by
        cases w with
        | vsome w2 =>
          exfalso
          cases te <;> simp_all [wf, inlinedTy]
        | vbool b => rfl
        | vuint n => rfl
        | vint i => rfl
        | vfix32 n => rfl
        | vfix64 n => rfl
        | vbytes bs => rfl
        | vstruct vf => rfl
        | vnil => rfl
        | vmap es => rfl
      simpa [payloadCore] using
        payloadEnc_ne_nil te w hg.1 hw hnzw htopw
termination_by sizeOf v

theorem appendEntries_nil_right (M : VEntries) :
    appendEntries M .nil = M := by
  cases M with
  | nil => rfl
  | econs k v r => simp [appendEntries, appendEntries_nil_right r]
termination_by sizeOf M

theorem wV_pos (v : Value) : 1 ≤ wV v := by
  cases v <;> simp [wV]

theorem wFs_pos (vf : VFields) : 1 ≤ wFs vf := by
  cases vf <;> (simp [wFs]; try omega)

theorem wEs_pos (es : VEntries) : 1 ≤ wEs es := by
  cases es <;> (simp [wEs]; try omega)

theorem wEs_entriesOf_lt (t : Ty) (v : Value) (hr : resolvesMap t = true)
    (hwf : wf t v = true) : wEs (entriesOf v) < wV v := by
  cases t with
  | tmap kt vt =>
    obtain ⟨es, rfl, -, -⟩ := wf_map_elim kt vt v hwf
    simp [entriesOf, wV]
  | tstruct fs =>
    cases fs with
    | nil => simp [resolvesMap] at hr
    | fcons n1 t1 tr =>
      cases tr with
      | nil =>
        simp only [resolvesMap, Bool.and_eq_true] at hr
        obtain ⟨vf, rfl, hvf, -⟩ := wf_struct_elim _ v hwf
        obtain ⟨w, vr, rfl, hw, hvr⟩ := wfFields_cons_elim _ _ _ _ hvf
        have hnil := wfFields_nil_elim vr hvr
        subst hnil
        have := wEs_entriesOf_lt t1 w hr.2 hw
        simp only [entriesOf, wV, wFs]
        omega
      | fcons n2 t2 tr2 => simp [resolvesMap] at hr
  | tbool => simp [resolvesMap] at hr
  | tuint => simp [resolvesMap] at hr
  | tint => simp [resolvesMap] at hr
  | tfix32 => simp [resolvesMap] at hr
  | tfix64 => simp [resolvesMap] at hr
  | tbytes => simp [resolvesMap] at hr
  | tarray n => simp [resolvesMap] at hr
  | tptr te => simp [resolvesMap] at hr
termination_by sizeOf v

theorem setAll_cons_of_not_mem (n : Nat) (w : Value) (c : VFields)
    (tr : TyFields) (vr : VFields) (hwfF : wfFields tr vr = true)
    (hn : numMem n tr = false) :
    setAll (.fcons n w c) vr = .fcons n w (setAll c vr) := by
  cases tr with
  | nil =>
    have hnil := wfFields_nil_elim vr hwfF
    subst hnil
    simp [setAll]
  | fcons m t tr2 =>
    obtain ⟨x, vr2, rfl, hx, hvr2⟩ := wfFields_cons_elim _ _ _ _ hwfF
    simp only [numMem, Bool.or_eq_false_iff, beq_eq_false_iff_ne] at hn
    have hne : ¬(m = n) := fun h => hn.1 h.symm
    simp only [setAll, setV, if_neg hne]
    exact setAll_cons_of_not_mem n w (setV c m x) tr2 vr2 hvr2 hn.2
termination_by sizeOf vr

theorem setAll_zeroFields (fs : TyFields) (vf : VFields)
    (hwfF : wfFields fs vf = true) (hdist : distinctNums fs = true) :
    setAll (zeroFields fs) vf = vf := by
  cases fs with
  | nil =>
    have hnil := wfFields_nil_elim vf hwfF
    subst hnil
    rfl
  | fcons n t tr =>
    obtain ⟨w, vr, rfl, hw, hvr⟩ := wfFields_cons_elim _ _ _ _ hwfF
    simp only [distinctNums, Bool.and_eq_true, Bool.not_eq_true'] at hdist
    simp only [zeroFields, setAll, setV, if_true, eq_self_iff_true, if_pos]
    rw [setAll_cons_of_not_mem n w (zeroFields tr) tr vr hvr hdist.1,
      setAll_zeroFields tr vr hvr hdist.2]
termination_by sizeOf vf

theorem varintDec_tag (num wt : Nat) (rest : List Nat) (h1 : num < 2 ^ 61)
    (h2 : wt < 8) :
    varintDec 10 (varintEnc (num * 8 + wt) ++ rest) =
      some (num * 8 + wt, (varintEnc (num * 8 + wt)).length) := by
  apply varintDec_enc
  apply varintEnc_length_le_ten
  omega

theorem decLoop_nil (fuel : Nat) (fs : TyFields) (cur : VFields) :
    decLoop fuel fs cur [] = some cur := by
  cases fuel <;> simp [decLoop]

theorem decMapLoop_nil (fuel : Nat) (kt vt : Ty) (es : VEntries) :
    decMapLoop fuel kt vt es [] = some es := by
  cases fuel <;> simp [decMapLoop]

theorem decLoop_cons (f : Nat) (fs : TyFields) (cur : VFields)
    (b : List Nat) (hb : b ≠ []) :
    decLoop (f + 1) fs cur b =
      match varintDec 10 b with
      | some (tag, tn) =>
        match getTy fs (tag / 8) with
        | some ty =>
          match decField (f + 1) ty (getVOr cur (tag / 8) ty) (b.drop tn) with
          | some (v2, n) =>
            decLoop f fs (setV cur (tag / 8) v2) ((b.drop tn).drop n)
          | none => none
        | none =>
          match skipUnknown (tag % 8) (b.drop tn) with
          | some n => decLoop f fs cur ((b.drop tn).drop n)
          | none => none
      | none => none := by
  cases b with
  | nil => exact absurd rfl hb
  | cons x xs => simp only [decLoop]

theorem decMapLoop_cons (f : Nat) (kt vt : Ty) (es : VEntries)
    (b : List Nat) (hb : b ≠ []) :
    decMapLoop (f + 1) kt vt es b =
      match varintDec 10 b with
      | some (_tag, tn) =>
        match varlenDec (b.drop tn) with
        | some (block, n) =>
          match decLoop f (.fcons 1 kt (.fcons 2 vt .nil))
              (.fcons 1 (zeroVal kt) (.fcons 2 (zeroVal vt) .nil)) block with
          | some (.fcons _ k (.fcons _ w .nil)) =>
            decMapLoop f kt vt (insertEntry es k w) ((b.drop tn).drop n)
          | _ => none
        | none => none
      | none => none := by
  cases b with
  | nil => exact absurd rfl hb
  | cons x xs => simp only [decMapLoop]

theorem setV_setV (cur : VFields) (num : Nat) (a b : Value) :
    setV (setV cur num a) num b = setV cur num b := by
  cases cur with
  | nil => simp [setV]
  | fcons n w r =>
    by_cases hn : num = n
    · subst hn
      simp [setV]
    · simp [setV, hn, setV_setV r num a b]
termination_by sizeOf cur

set_option maxHeartbeats 1600000 in
mutual

/-- Decoding a non-inlined field's payload restores the encoded value and
consumes exactly the payload. -/
theorem decField_solid (fuel : Nat) (t : Ty) (v : Value) (cur : Value)
    (rest : List Nat) (hg : good t = true) (hni : inlinedTy t = false)
    (hwf : wf t v = true) (hfuel : (fieldPayload v).length ≤ fuel) :
    decField fuel t cur (fieldPayload v ++ rest) =
      some (v, (fieldPayload v).length) := by
  cases t with
  | tbool =>
    cases v with
    | vbool b =>
      have hd : varintDec 10 (varintEnc (if b then 1 else 0) ++ rest) =
          some (if b then 1 else 0, (varintEnc (if b then 1 else 0)).length) :=
        varintDec_enc _ _ _
          (varintEnc_length_le_ten _ (by cases b <;> norm_num))
      simp only [decField, fieldPayload, hd, Option.map_some]
      cases b <;> simp
    | vuint n => simp [wf] at hwf
    | vint i => simp [wf] at hwf
    | vfix32 n => simp [wf] at hwf
    | vfix64 n => simp [wf] at hwf
    | vbytes bs => simp [wf] at hwf
    | vstruct vf => simp [wf] at hwf
    | vnil => simp [wf] at hwf
    | vsome w => simp [wf] at hwf
    | vmap es => simp [wf] at hwf
  | tuint =>
    cases v with
    | vuint n =>
      have hb : n < 2 ^ 64 := by simpa [wf] using hwf
      have hd := varintDec_enc n rest 10 (varintEnc_length_le_ten n hb)
      have hmod : n % 2 ^ 64 = n := Nat.mod_eq_of_lt hb
      simp [decField, fieldPayload, hd, hmod]
      omega
    | vbool b => simp [wf] at hwf
    | vint i => simp [wf] at hwf
    | vfix32 n => simp [wf] at hwf
    | vfix64 n => simp [wf] at hwf
    | vbytes bs => simp [wf] at hwf
    | vstruct vf => simp [wf] at hwf
    | vnil => simp [wf] at hwf
    | vsome w => simp [wf] at hwf
    | vmap es => simp [wf] at hwf
  | tint =>
    cases v with
    | vint i =>
      have hb : -(2 ^ 63) ≤ i ∧ i < 2 ^ 63 := by
        simpa [wf, Bool.and_eq_true, decide_eq_true_eq] using hwf
      have hu := intToU64_lt i hb.1 hb.2
      have hd := varintDec_enc (intToU64 i) rest 10
        (varintEnc_length_le_ten _ hu)
      have hmod : intToU64 i % 18446744073709551616 = intToU64 i := by
        omega
      have hback := u64ToInt_intToU64 i hb.1 hb.2
      simp [decField, fieldPayload, hd, hmod, hback]
    | vbool b => simp [wf] at hwf
    | vuint n => simp [wf] at hwf
    | vfix32 n => simp [wf] at hwf
    | vfix64 n => simp [wf] at hwf
    | vbytes bs => simp [wf] at hwf
    | vstruct vf => simp [wf] at hwf
    | vnil => simp [wf] at hwf
    | vsome w => simp [wf] at hwf
    | vmap es => simp [wf] at hwf
  | tfix32 =>
    cases v with
    | vfix32 n =>
      have hb : n < 2 ^ 32 := by simpa [wf] using hwf
      simp [decField, fieldPayload, le4Dec_enc n rest hb, le4_length]
    | vbool b => simp [wf] at hwf
    | vuint n => simp [wf] at hwf
    | vint i => simp [wf] at hwf
    | vfix64 n => simp [wf] at hwf
    | vbytes bs => simp [wf] at hwf
    | vstruct vf => simp [wf] at hwf
    | vnil => simp [wf] at hwf
    | vsome w => simp [wf] at hwf
    | vmap es => simp [wf] at hwf
  | tfix64 =>
    cases v with
    | vfix64 n =>
      have hb : n < 2 ^ 64 := by simpa [wf] using hwf
      simp [decField, fieldPayload, le8Dec_enc n rest hb, le8_length]
    | vbool b => simp [wf] at hwf
    | vuint n => simp [wf] at hwf
    | vint i => simp [wf] at hwf
    | vfix32 n => simp [wf] at hwf
    | vbytes bs => simp [wf] at hwf
    | vstruct vf => simp [wf] at hwf
    | vnil => simp [wf] at hwf
    | vsome w => simp [wf] at hwf
    | vmap es => simp [wf] at hwf
  | tbytes =>
    cases v with
    | vbytes bs =>
      have hb : bs.length < 2 ^ 64 := by
        have := hwf
        simp only [wf, Bool.and_eq_true, decide_eq_true_eq] at this
        exact this.2
      simp only [decField, fieldPayload]
      rw [varlenDec_enc bs rest hb]
      simp [varlenEnc]
    | vbool b => simp [wf] at hwf
    | vuint n => simp [wf] at hwf
    | vint i => simp [wf] at hwf
    | vfix32 n => simp [wf] at hwf
    | vfix64 n => simp [wf] at hwf
    | vstruct vf => simp [wf] at hwf
    | vnil => simp [wf] at hwf
    | vsome w => simp [wf] at hwf
    | vmap es => simp [wf] at hwf
  | tarray sz =>
    cases v with
    | vbytes bs =>
      have hb : bs.length < 2 ^ 64 := by
        have := hwf
        simp only [wf, Bool.and_eq_true, decide_eq_true_eq, beq_iff_eq]
          at this
        omega
      simp only [decField, fieldPayload]
      rw [varlenDec_enc bs rest hb]
      simp [varlenEnc]
    | vbool b => simp [wf] at hwf
    | vuint n => simp [wf] at hwf
    | vint i => simp [wf] at hwf
    | vfix32 n => simp [wf] at hwf
    | vfix64 n => simp [wf] at hwf
    | vstruct vf => simp [wf] at hwf
    | vnil => simp [wf] at hwf
    | vsome w => simp [wf] at hwf
    | vmap es => simp [wf] at hwf
  | tptr te => simp [inlinedTy] at hni
  | tmap kt vt => simp [inlinedTy] at hni
  | tstruct fs =>
    obtain ⟨vf, rfl, hvf, hlen⟩ := wf_struct_elim _ v hwf
    simp only [good, Bool.and_eq_true] at hg
    have hpay : fieldPayload (.vstruct vf) = varlenEnc (bodyEnc vf) := by
      cases fs with
      | nil =>
        have hnil := wfFields_nil_elim vf hvf
        subst hnil
        simp [fieldPayload]
      | fcons n1 t1 tr =>
        obtain ⟨w, vr, rfl, hw, hvr⟩ := wfFields_cons_elim _ _ _ _ hvf
        cases tr with
        | nil =>
          have hnil := wfFields_nil_elim vr hvr
          subst hnil
          have ht1 : inlinedTy t1 = false := by simpa [inlinedTy] using hni
          have hiw : inlinedV w = false := by
            rw [inlinedV_eq_inlinedTy t1 w hw, ht1]
          simp [fieldPayload, hiw]
        | fcons n2 t2 tr2 =>
          obtain ⟨w2, vr2, rfl, hw2, hvr2⟩ := wfFields_cons_elim _ _ _ _ hvr
          simp [fieldPayload]
    have hfuelp : (varintEnc (bodyEnc vf).length).length +
        (bodyEnc vf).length ≤ fuel := by
      rw [hpay] at hfuel
      simpa [varlenEnc] using hfuel
    have hvp := varintEnc_length_pos (bodyEnc vf).length
    cases fuel with
    | zero => omega
    | succ f =>
      have hdecoded : decLoop f fs (zeroFields fs) (bodyEnc vf) = some vf := by
        obtain ⟨f2, -, heq⟩ := decLoop_body f fs fs vf (zeroFields fs) [] hvf
          hg.1 hg.2 (fun _ _ h => h)
          (fun num ty h => getV_zeroFields fs num ty h)
          (by simp only [List.append_nil]; omega)
        rw [List.append_nil] at heq
        rw [heq, decLoop_nil, setAll_zeroFields fs vf hvf hg.2]
      have hvd := varlenDec_enc (bodyEnc vf) rest hlen
      rw [hpay]
      cases fs with
      | nil =>
        simp only [decField, hvd, hdecoded]
        simp [varlenEnc]
      | fcons n1 t1 tr =>
        cases tr with
        | nil =>
          have ht1 : inlinedTy t1 = false := by simpa [inlinedTy] using hni
          simp only [decField, ht1, Bool.false_eq_true, if_false, hvd,
            hdecoded]
          simp [varlenEnc]
        | fcons n2 t2 tr2 =>
          simp only [decField, hvd, hdecoded]
          simp [varlenEnc]
termination_by (wV v, 0)
decreasing_by
all_goals
  first
    | decreasing_tactic
    | (simp_wf
       subst_vars
       apply Prod.Lex.left
       simp only [wV, wFs]
       omega)

/-- Decoding an inlined (non-map) field's payload restores the encoded
value. -/
theorem decField_inline (fuel : Nat) (t : Ty) (v : Value) (cur : Value)
    (rest : List Nat) (hg : good t = true) (hi : inlinedTy t = true)
    (hr : resolvesMap t = false) (hwf : wf t v = true)
    (hnz : isZero v = false) (hfuel : (fieldPayload v).length ≤ fuel) :
    decField fuel t cur (fieldPayload v ++ rest) =
      some (v, (fieldPayload v).length) := by
  cases t with
  | tptr te =>
    rcases wf_ptr_elim te v hwf with rfl | ⟨w, rfl, hw⟩
    · simp [isZero] at hnz
    · simp only [good, Bool.and_eq_true, Bool.not_eq_true'] at hg
      have hrec := decField_solid fuel te w (curPointee te cur) rest hg.1
        hg.2 hw (by simpa [fieldPayload] using hfuel)
      simp only [fieldPayload] at hrec ⊢
      simp [decField, hrec]
  | tmap kt vt => simp [resolvesMap] at hr
  | tstruct fs =>
    cases fs with
    | nil => simp [inlinedTy] at hi
    | fcons n1 t1 tr =>
      cases tr with
      | nil =>
        obtain ⟨vf, rfl, hvf, -⟩ := wf_struct_elim _ v hwf
        obtain ⟨w, vr, rfl, hw, hvr⟩ := wfFields_cons_elim _ _ _ _ hvf
        have hnil := wfFields_nil_elim vr hvr
        subst hnil
        have ht1 : inlinedTy t1 = true := by simpa [inlinedTy] using hi
        have hr1 : resolvesMap t1 = false := by
          simpa [resolvesMap, ht1] using hr
        have hg1 : good t1 = true := by
          simp only [good, goodFields, Bool.and_eq_true] at hg
          exact hg.1.1.2
        have hnzw : isZero w = false := by
          simpa [isZero, fieldsZero] using hnz
        have hiw : inlinedV w = true := by
          rw [inlinedV_eq_inlinedTy t1 w hw, ht1]
        have hpay : fieldPayload (Value.vstruct (.fcons n1 w .nil)) =
            fieldPayload w := by
          simp [fieldPayload, hiw]
        have hrec := decField_inline fuel t1 w (curField1 t1 cur) rest hg1
          ht1 hr1 hw hnzw (by rw [hpay] at hfuel; exact hfuel)
        rw [hpay]
        simp [decField, ht1, hrec]
      | fcons n2 t2 tr2 => simp [inlinedTy] at hi
  | tbool => simp [inlinedTy] at hi
  | tuint => simp [inlinedTy] at hi
  | tint => simp [inlinedTy] at hi
  | tfix32 => simp [inlinedTy] at hi
  | tfix64 => simp [inlinedTy] at hi
  | tbytes => simp [inlinedTy] at hi
  | tarray sz => simp [inlinedTy] at hi
termination_by (wV v, 0)
decreasing_by
all_goals
  first
    | decreasing_tactic
    | (simp_wf
       subst_vars
       apply Prod.Lex.left
       simp only [wV, wFs]
       omega)

/-- Decoding one varlen-wrapped entry of a map-resolving field inserts the
entry into the current map. -/
theorem decField_mapchunk (fuel : Nat) (t : Ty) (k w : Value) (M : VEntries)
    (rest : List Nat) (hg : good t = true) (hr : resolvesMap t = true)
    (hk : wf (mapKeyTy t) k = true) (hw : wf (mapValTy t) w = true)
    (hlen : (entryEnc k w).length < 2 ^ 64) (hfree : keyMem k M = false)
    (hfuel : (varlenEnc (entryEnc k w)).length ≤ fuel) :
    decField fuel t (mkMapVal t M) (varlenEnc (entryEnc k w) ++ rest) =
      some (mkMapVal t (appendEntries M (.econs k w .nil)),
        (varlenEnc (entryEnc k w)).length) := by
  cases t with
  | tmap kt vt =>
    simp only [mapKeyTy] at hk
    simp only [mapValTy] at hw
    simp only [good, Bool.and_eq_true] at hg
    have hvd := varlenDec_enc (entryEnc k w) rest hlen
    have hvp := varintEnc_length_pos (entryEnc k w).length
    have hlenb : (varlenEnc (entryEnc k w)).length =
        (varintEnc (entryEnc k w).length).length + (entryEnc k w).length := by
      simp [varlenEnc]
    cases fuel with
    | zero => omega
    | succ f =>
      have hentry : decLoop f (.fcons 1 kt (.fcons 2 vt .nil))
          (.fcons 1 (zeroVal kt) (.fcons 2 (zeroVal vt) .nil))
          (entryEnc k w) = some (.fcons 1 k (.fcons 2 w .nil)) := by
        have hbody : entryEnc k w =
            bodyEnc (.fcons 1 k (.fcons 2 w .nil)) ++ [] := by
          simp [entryEnc, bodyEnc]
        rw [hbody]
        obtain ⟨f2, -, heq⟩ := decLoop_body f
          (.fcons 1 kt (.fcons 2 vt .nil)) (.fcons 1 kt (.fcons 2 vt .nil))
          (.fcons 1 k (.fcons 2 w .nil))
          (.fcons 1 (zeroVal kt) (.fcons 2 (zeroVal vt) .nil)) []
          (by simp [wfFields, hk, hw])
          (by simp [goodFields, hg.1, hg.2])
          (by simp [distinctNums, numMem])
          (fun _ _ h => h)
          (by
            intro num ty h
            by_cases h1 : num = 1
            · subst h1
              simp [getTy] at h
              subst h
              simp [getV]
            · by_cases h2 : num = 2
              · subst h2
                simp [getTy] at h
                subst h
                simp [getV]
              · simp [getTy, h1, h2] at h)
          (by
            rw [← hbody]
            omega)
        rw [heq, decLoop_nil]
        simp [setAll, setV]
      simp only [decField, hvd, hentry, mkMapVal, curEntries,
        insertEntry_fresh M k w hfree, hlenb]
  | tstruct fs =>
    cases fs with
    | nil => simp [resolvesMap] at hr
    | fcons n1 t1 tr =>
      cases tr with
      | nil =>
        simp only [resolvesMap, Bool.and_eq_true] at hr
        have hg1 : good t1 = true := by
          simp only [good, goodFields, Bool.and_eq_true] at hg
          exact hg.1.1.2
        have hrec := decField_mapchunk fuel t1 k w M rest hg1 hr.2
          (by simpa [mapKeyTy] using hk) (by simpa [mapValTy] using hw)
          hlen hfree hfuel
        simp only [mkMapVal]
        simp [decField, hr.1, curField1, hrec]
      | fcons n2 t2 tr2 => simp [resolvesMap] at hr
  | tbool => simp [resolvesMap] at hr
  | tuint => simp [resolvesMap] at hr
  | tint => simp [resolvesMap] at hr
  | tfix32 => simp [resolvesMap] at hr
  | tfix64 => simp [resolvesMap] at hr
  | tbytes => simp [resolvesMap] at hr
  | tarray sz => simp [resolvesMap] at hr
  | tptr te => simp [resolvesMap] at hr
termination_by (wV k + wV w + 4, sizeOf t)
decreasing_by
all_goals
  first
    | decreasing_tactic
    | (simp_wf
       subst_vars
       apply Prod.Lex.left
       simp only [wFs, wV, wEs]
       omega)

/-- The struct decode loop processes the encoded suffix of fields,
writing each encoded field into the target. -/
theorem decLoop_body (fuel : Nat) (fs tsub : TyFields) (vsub cur : VFields)
    (rest : List Nat) (hwfF : wfFields tsub vsub = true)
    (hgf : goodFields tsub = true) (hdist : distinctNums tsub = true)
    (hsub : ∀ num ty, getTy tsub num = some ty → getTy fs num = some ty)
    (hcur : ∀ num ty, getTy tsub num = some ty →
      getV cur num = some (zeroVal ty))
    (hfuel : (bodyEnc vsub ++ rest).length ≤ fuel) :
    ∃ f2, rest.length ≤ f2 ∧
      decLoop fuel fs cur (bodyEnc vsub ++ rest) =
        decLoop f2 fs (setAll cur vsub) rest := by
  cases tsub with
  | nil =>
    have hnil := wfFields_nil_elim vsub hwfF
    subst hnil
    refine ⟨fuel, by simpa [bodyEnc] using hfuel, ?_⟩
    simp [bodyEnc, setAll]
  | fcons num ty tr =>
    obtain ⟨v, vr, rfl, hv, hvr⟩ := wfFields_cons_elim _ _ _ _ hwfF
    simp only [goodFields, Bool.and_eq_true, decide_eq_true_eq] at hgf
    obtain ⟨⟨⟨hn1, hn2⟩, hgty⟩, hgtr⟩ := hgf
    simp only [distinctNums, Bool.and_eq_true, Bool.not_eq_true'] at hdist
    obtain ⟨hmem, hdtr⟩ := hdist
    have hgtr2 : goodFields tr = true := hgtr
    have hsub' : ∀ num2 ty2, getTy tr num2 = some ty2 →
        getTy fs num2 = some ty2 := by
      intro num2 ty2 h2
      by_cases he : num2 = num
      · subst he
        rw [getTy_of_not_numMem tr num2 hmem] at h2
        cases h2
      · exact hsub num2 ty2 (by simp [getTy, he, h2])
    have hcur' : ∀ num2 ty2, getTy tr num2 = some ty2 →
        getV cur num2 = some (zeroVal ty2) := by
      intro num2 ty2 h2
      by_cases he : num2 = num
      · subst he
        rw [getTy_of_not_numMem tr num2 hmem] at h2
        cases h2
      · exact hcur num2 ty2 (by simp [getTy, he, h2])
    have hgetty : getTy fs num = some ty := hsub num ty (by simp [getTy])
    have hgetv : getV cur num = some (zeroVal ty) :=
      hcur num ty (by simp [getTy])
    by_cases hz : isZero v = true
    · have hveq : v = zeroVal ty := eq_zeroVal_of_isZero ty v hv hz
      obtain ⟨f2, hf2, heq⟩ := decLoop_body fuel fs tr vr cur rest hvr hgtr2
        hdtr hsub' hcur' (by simpa [bodyEnc, fieldEnc, hz] using hfuel)
      refine ⟨f2, hf2, ?_⟩
      rw [show bodyEnc (VFields.fcons num v vr) = bodyEnc vr from by
        simp [bodyEnc, fieldEnc, hz]]
      rw [heq]
      congr 1
      simp only [setAll]
      rw [hveq, setV_self cur num (zeroVal ty) hgetv]
    · have hzf : isZero v = false := by simpa using hz
      by_cases hrm : resolvesMap ty = true
      · have hes := entries_wf_of_wf ty v hrm hv
        have hveq := mkMapVal_entriesOf ty v hrm hv
        have henc : fieldEnc num v = entriesEnc num (entriesOf v) := by
          simp [fieldEnc, hzf, fieldTagged_entriesEnc num ty v hrm hv]
        have hsplit : bodyEnc (VFields.fcons num v vr) ++ rest =
            entriesEnc num (entriesOf v) ++ (bodyEnc vr ++ rest) := by
          simp [bodyEnc, henc, List.append_assoc]
        obtain ⟨f2, hf2, heq⟩ := decLoop_mapfield fuel fs num ty
          (entriesOf v) .nil cur (bodyEnc vr ++ rest) hgty hrm hn1 hn2
          hgetty hes.1 (by simpa [appendEntries] using hes.2)
          (by rw [hgetv, zeroVal_resolvesMap ty hrm])
          (by rw [hsplit] at hfuel; exact hfuel)
        have hcur2 : ∀ num2 ty2, getTy tr num2 = some ty2 →
            getV (setV cur num (mkMapVal ty (appendEntries .nil
              (entriesOf v)))) num2 = some (zeroVal ty2) := by
          intro num2 ty2 h2
          have hne : num2 ≠ num := by
            intro he
            subst he
            rw [getTy_of_not_numMem tr num2 hmem] at h2
            cases h2
          rw [getV_setV_other cur num num2 _ hne]
          exact hcur' num2 ty2 h2
        obtain ⟨f3, hf3, heq2⟩ := decLoop_body f2 fs tr vr
          (setV cur num (mkMapVal ty (appendEntries .nil (entriesOf v))))
          rest hvr hgtr2 hdtr hsub' hcur2 hf2
        refine ⟨f3, hf3, ?_⟩
        rw [hsplit, heq, heq2]
        congr 1
        simp only [setAll]
        congr 1
        rw [show appendEntries VEntries.nil (entriesOf v) = entriesOf v
          from rfl, ← hveq]
      · have hrmf : resolvesMap ty = false := by simpa using hrm
        have htag : fieldEnc num v =
            varintEnc (num * 8 + wtV v) ++ fieldPayload v := by
          by_cases hit : inlinedTy ty = true
          · simp [fieldEnc, hzf,
              fieldTagged_inline num ty v hgty hit hrmf hv hzf]
          · simp [fieldEnc, hzf,
              fieldTagged_solid num ty v (by simpa using hit) hv]
        have hwtlt := wtV_lt v
        have htaglen := varintEnc_length_pos (num * 8 + wtV v)
        have hsplit : bodyEnc (VFields.fcons num v vr) ++ rest =
            varintEnc (num * 8 + wtV v) ++
              (fieldPayload v ++ (bodyEnc vr ++ rest)) := by
          simp [bodyEnc, htag, List.append_assoc]
        have hblen : (bodyEnc (VFields.fcons num v vr) ++ rest).length =
            (varintEnc (num * 8 + wtV v)).length +
              ((fieldPayload v).length + (bodyEnc vr ++ rest).length) := by
          rw [hsplit]
          simp [List.length_append]
        cases fuel with
        | zero => omega
        | succ f =>
          have hdiv : (num * 8 + wtV v) / 8 = num := by omega
          have hmod : (num * 8 + wtV v) % 8 = wtV v := by omega
          have hstep : decLoop (f + 1) fs cur
              (bodyEnc (VFields.fcons num v vr) ++ rest) =
              decLoop f fs (setV cur num v) (bodyEnc vr ++ rest) := by
            rw [hsplit]
            rw [decLoop_cons f fs cur _ (by
              intro hcontra
              rw [List.append_eq_nil] at hcontra
              exact varintEnc_ne_nil _ hcontra.1)]
            rw [varintDec_tag num (wtV v) _ hn2 hwtlt]
            simp only [hdiv, List.drop_left, hgetty, getVOr, hgetv]
            have hdf : decField (f + 1) ty (zeroVal ty)
                (fieldPayload v ++ (bodyEnc vr ++ rest)) =
                some (v, (fieldPayload v).length) := by
              by_cases hit : inlinedTy ty = true
              · exact decField_inline (f + 1) ty v (zeroVal ty) _ hgty hit
                  hrmf hv hzf (by omega)
              · exact decField_solid (f + 1) ty v (zeroVal ty) _ hgty
                  (by simpa using hit) hv (by omega)
            rw [hdf]
            simp only [List.drop_left]
          obtain ⟨f2, hf2, heq⟩ := decLoop_body f fs tr vr (setV cur num v)
            rest hvr hgtr2 hdtr hsub'
            (by
              intro num2 ty2 h2
              have hne : num2 ≠ num := by
                intro he
                subst he
                rw [getTy_of_not_numMem tr num2 hmem] at h2
                cases h2
              rw [getV_setV_other cur num num2 v hne]
              exact hcur' num2 ty2 h2)
            (by omega)
          refine ⟨f2, hf2, ?_⟩
          rw [hstep, heq]
          simp [setAll]
termination_by (wFs vsub, 0)
decreasing_by
all_goals
  first
    | decreasing_tactic
    | (simp_wf
       subst_vars
       apply Prod.Lex.left
       simp only [wFs, wEs, wV]
       omega)
    | (simp_wf
       subst_vars
       apply Prod.Lex.left
       have hb := wEs_entriesOf_lt ty v (by assumption) (by assumption)
       simp only [wFs, wEs, wV]
       omega)

/-- The struct decode loop accumulates the repeated entry chunks of one
map-resolving field into that field. -/
theorem decLoop_mapfield (fuel : Nat) (fs : TyFields) (num : Nat) (ty : Ty)
    (es M : VEntries) (cur : VFields) (rest : List Nat)
    (hg : good ty = true) (hr : resolvesMap ty = true) (hn1 : 1 ≤ num)
    (hn2 : num < 2 ^ 61) (hty : getTy fs num = some ty)
    (hwfE : wfEntries (mapKeyTy ty) (mapValTy ty) es = true)
    (huniq : uniqueKeys (appendEntries M es) = true)
    (hcurv : getV cur num = some (mkMapVal ty M))
    (hfuel : (entriesEnc num es ++ rest).length ≤ fuel) :
    ∃ f2, rest.length ≤ f2 ∧
      decLoop fuel fs cur (entriesEnc num es ++ rest) =
        decLoop f2 fs (setV cur num (mkMapVal ty (appendEntries M es)))
          rest := by
  cases es with
  | nil =>
    refine ⟨fuel, by simpa [entriesEnc] using hfuel, ?_⟩
    rw [appendEntries_nil_right, setV_self cur num (mkMapVal ty M) hcurv]
    simp [entriesEnc]
  | econs k w er =>
    simp only [wfEntries, Bool.and_eq_true, decide_eq_true_eq] at hwfE
    obtain ⟨⟨⟨hk, hw⟩, hlen⟩, hwfr⟩ := hwfE
    have hfree : keyMem k M = false := uniqueKeys_append_head M k w er huniq
    have hwt2 : Build.WireType.code .varlen < 8 := by
      simp [Build.WireType.code]
    have htaglen := varintEnc_length_pos
      (num * 8 + Build.WireType.code .varlen)
    have hvlp := varintEnc_length_pos (entryEnc k w).length
    have hsplit : entriesEnc num (VEntries.econs k w er) ++ rest =
        varintEnc (num * 8 + Build.WireType.code .varlen) ++
          (varlenEnc (entryEnc k w) ++ (entriesEnc num er ++ rest)) := by
      simp [entriesEnc, entryEnc, List.append_assoc]
    have hblen : (entriesEnc num (VEntries.econs k w er) ++ rest).length =
        (varintEnc (num * 8 + Build.WireType.code .varlen)).length +
          ((varlenEnc (entryEnc k w)).length +
            (entriesEnc num er ++ rest).length) := by
      rw [hsplit]
      simp [List.length_append]
    cases fuel with
    | zero => omega
    | succ f =>
      have hdiv : (num * 8 + Build.WireType.code .varlen) / 8 = num := by
        simp only [Build.WireType.code]
        omega
      have hstep : decLoop (f + 1) fs cur
          (entriesEnc num (VEntries.econs k w er) ++ rest) =
          decLoop f fs
            (setV cur num (mkMapVal ty (appendEntries M (.econs k w .nil))))
            (entriesEnc num er ++ rest) := by
        rw [hsplit]
        rw [decLoop_cons f fs cur _ (by
          intro hcontra
          rw [List.append_eq_nil] at hcontra
          exact varintEnc_ne_nil _ hcontra.1)]
        rw [varintDec_tag num (Build.WireType.code .varlen) _ hn2 hwt2]
        simp only [hdiv, List.drop_left, hty, getVOr, hcurv]
        have hdf := decField_mapchunk (f + 1) ty k w M
          (entriesEnc num er ++ rest) hg hr hk hw hlen hfree (by omega)
        rw [hdf]
        simp only [List.drop_left]
      have hcurv2 : getV (setV cur num
          (mkMapVal ty (appendEntries M (.econs k w .nil)))) num =
          some (mkMapVal ty (appendEntries M (.econs k w .nil))) :=
        getV_setV_self cur num _ _ hcurv
      have huniq2 : uniqueKeys (appendEntries
          (appendEntries M (.econs k w .nil)) er) = true := by
        rw [appendEntries_snoc]
        exact huniq
      obtain ⟨f2, hf2, heq⟩ := decLoop_mapfield f fs num ty er
        (appendEntries M (.econs k w .nil))
        (setV cur num (mkMapVal ty (appendEntries M (.econs k w .nil))))
        rest hg hr hn1 hn2 hty hwfr huniq2 hcurv2 (by omega)
      refine ⟨f2, hf2, ?_⟩
      rw [hstep, heq]
      rw [setV_setV]
      rw [appendEntries_snoc]
termination_by (wEs es, 0)
decreasing_by
all_goals
  first
    | decreasing_tactic
    | (simp_wf
       subst_vars
       apply Prod.Lex.left
       simp only [wEs, wV, wFs]
       omega)

end

/-- The top-level map decode loop accumulates the entry chunks produced by
`entriesEnc` into the target map. -/
theorem decMapLoop_enc (fuel : Nat) (kt vt : Ty) (es M : VEntries)
    (hgk : good kt = true) (hgv : good vt = true)
    (hwfE : wfEntries kt vt es = true)
    (huniq : uniqueKeys (appendEntries M es) = true)
    (hfuel : (entriesEnc 1 es).length ≤ fuel) :
    decMapLoop fuel kt vt M (entriesEnc 1 es) =
      some (appendEntries M es) := by
  cases es with
  | nil =>
    rw [appendEntries_nil_right]
    simp [entriesEnc, decMapLoop_nil]
  | econs k w er =>
    simp only [wfEntries, Bool.and_eq_true, decide_eq_true_eq] at hwfE
    obtain ⟨⟨⟨hk, hw⟩, hlen⟩, hwfr⟩ := hwfE
    have hfree : keyMem k M = false := uniqueKeys_append_head M k w er huniq
    have hwt2 : Build.WireType.code .varlen < 8 := by
      simp [Build.WireType.code]
    have htaglen := varintEnc_length_pos (1 * 8 + Build.WireType.code .varlen)
    have hvlp := varintEnc_length_pos (entryEnc k w).length
    have hsplit : entriesEnc 1 (VEntries.econs k w er) =
        varintEnc (1 * 8 + Build.WireType.code .varlen) ++
          (varlenEnc (entryEnc k w) ++ entriesEnc 1 er) := by
      simp [entriesEnc, entryEnc, List.append_assoc]
    have hblen : (entriesEnc 1 (VEntries.econs k w er)).length =
        (varintEnc (1 * 8 + Build.WireType.code .varlen)).length +
          ((varlenEnc (entryEnc k w)).length + (entriesEnc 1 er).length) := by
      rw [hsplit]
      simp [List.length_append]
    have hvll : (varlenEnc (entryEnc k w)).length =
        (varintEnc (entryEnc k w).length).length + (entryEnc k w).length := by
      simp [varlenEnc]
    cases fuel with
    | zero => omega
    | succ f =>
      have hvd := varlenDec_enc (entryEnc k w) (entriesEnc 1 er) hlen
      have hentry : decLoop f (.fcons 1 kt (.fcons 2 vt .nil))
          (.fcons 1 (zeroVal kt) (.fcons 2 (zeroVal vt) .nil))
          (entryEnc k w) = some (.fcons 1 k (.fcons 2 w .nil)) := by
        have hbody : entryEnc k w =
            bodyEnc (.fcons 1 k (.fcons 2 w .nil)) ++ [] := by
          simp [entryEnc, bodyEnc]
        rw [hbody]
        obtain ⟨f2, -, heq⟩ := decLoop_body f
          (.fcons 1 kt (.fcons 2 vt .nil)) (.fcons 1 kt (.fcons 2 vt .nil))
          (.fcons 1 k (.fcons 2 w .nil))
          (.fcons 1 (zeroVal kt) (.fcons 2 (zeroVal vt) .nil)) []
          (by simp [wfFields, hk, hw])
          (by simp [goodFields, hgk, hgv])
          (by simp [distinctNums, numMem])
          (fun _ _ h => h)
          (by
            intro num ty h
            by_cases h1 : num = 1
            · subst h1
              simp [getTy] at h
              subst h
              simp [getV]
            · by_cases h2 : num = 2
              · subst h2
                simp [getTy] at h
                subst h
                simp [getV]
              · simp [getTy, h1, h2] at h)
          (by
            rw [← hbody]
            omega)
        rw [heq, decLoop_nil]
        simp [setAll, setV]
      have hdrop : (varlenEnc (entryEnc k w) ++ entriesEnc 1 er).drop
          ((varintEnc (entryEnc k w).length).length + (entryEnc k w).length) =
          entriesEnc 1 er := by
        rw [← hvll]
        exact List.drop_left _ _
      rw [hsplit]
      rw [decMapLoop_cons f kt vt M _ (by
        intro hcontra
        rw [List.append_eq_nil] at hcontra
        exact varintEnc_ne_nil _ hcontra.1)]
      rw [varintDec_tag 1 (Build.WireType.code .varlen) _ (by norm_num) hwt2]
      simp only [List.drop_left, hvd, hentry, hdrop,
        insertEntry_fresh M k w hfree]
      rw [decMapLoop_enc f kt vt er (appendEntries M (.econs k w .nil)) hgk
        hgv hwfr (by rw [appendEntries_snoc]; exact huniq) (by omega),
        appendEntries_snoc]
termination_by sizeOf es

/-- Top-level decode, mirroring `payloadEnc`: decoding the marshalled
bytes of a non-zero value into a fresh zero target of its own shape
restores the value and consumes the whole buffer. -/
theorem decTop_enc (fuel : Nat) (t : Ty) (v : Value) (hg : good t = true)
    (hwf : wf t v = true) (hnz : isZero v = false) (htop : topOk v = true)
    (hfuel : (payloadEnc v).length < fuel) :
    decTop fuel t (zeroVal t) (payloadEnc v) =
      some (v, (payloadEnc v).length) := by
  have hpe : payloadEnc v = payloadCore v := by
    rw [payloadEnc, if_neg (by simp [hnz])]
  cases t with
  | tbool =>
    have hfp : payloadCore v = fieldPayload v := by
      cases v <;> simp_all [wf, payloadCore, fieldPayload]
    have hsolid := decField_solid fuel .tbool v (zeroVal .tbool) [] hg
      (by simp [inlinedTy]) hwf (by rw [← hfp, ← hpe]; omega)
    rw [List.append_nil] at hsolid
    simp only [decTop]
    rw [hpe, hfp]
    exact hsolid
  | tuint =>
    have hfp : payloadCore v = fieldPayload v := by
      cases v <;> simp_all [wf, payloadCore, fieldPayload]
    have hsolid := decField_solid fuel .tuint v (zeroVal .tuint) [] hg
      (by simp [inlinedTy]) hwf (by rw [← hfp, ← hpe]; omega)
    rw [List.append_nil] at hsolid
    simp only [decTop]
    rw [hpe, hfp]
    exact hsolid
  | tint =>
    have hfp : payloadCore v = fieldPayload v := by
      cases v <;> simp_all [wf, payloadCore, fieldPayload]
    have hsolid := decField_solid fuel .tint v (zeroVal .tint) [] hg
      (by simp [inlinedTy]) hwf (by rw [← hfp, ← hpe]; omega)
    rw [List.append_nil] at hsolid
    simp only [decTop]
    rw [hpe, hfp]
    exact hsolid
  | tfix32 =>
    have hfp : payloadCore v = fieldPayload v := by
      cases v <;> simp_all [wf, payloadCore, fieldPayload]
    have hsolid := decField_solid fuel .tfix32 v (zeroVal .tfix32) [] hg
      (by simp [inlinedTy]) hwf (by rw [← hfp, ← hpe]; omega)
    rw [List.append_nil] at hsolid
    simp only [decTop]
    rw [hpe, hfp]
    exact hsolid
  | tfix64 =>
    have hfp : payloadCore v = fieldPayload v := by
      cases v <;> simp_all [wf, payloadCore, fieldPayload]
    have hsolid := decField_solid fuel .tfix64 v (zeroVal .tfix64) [] hg
      (by simp [inlinedTy]) hwf (by rw [← hfp, ← hpe]; omega)
    rw [List.append_nil] at hsolid
    simp only [decTop]
    rw [hpe, hfp]
    exact hsolid
  | tbytes =>
    have hfp : payloadCore v = fieldPayload v := by
      cases v <;> simp_all [wf, payloadCore, fieldPayload]
    have hsolid := decField_solid fuel .tbytes v (zeroVal .tbytes) [] hg
      (by simp [inlinedTy]) hwf (by rw [← hfp, ← hpe]; omega)
    rw [List.append_nil] at hsolid
    simp only [decTop]
    rw [hpe, hfp]
    exact hsolid
  | tarray n =>
    have hfp : payloadCore v = fieldPayload v := by
      cases v <;> simp_all [wf, payloadCore, fieldPayload]
    have hsolid := decField_solid fuel (.tarray n) v (zeroVal (.tarray n)) []
      hg (by simp [inlinedTy]) hwf (by rw [← hfp, ← hpe]; omega)
    rw [List.append_nil] at hsolid
    simp only [decTop]
    rw [hpe, hfp]
    exact hsolid
  | tstruct fs =>
    obtain ⟨vf, rfl, hvf, hlen⟩ := wf_struct_elim _ v hwf
    simp only [good, Bool.and_eq_true] at hg
    have hbody : payloadEnc (Value.vstruct vf) = bodyEnc vf := by
      rw [hpe]
      simp [payloadCore]
    cases fuel with
    | zero => omega
    | succ f =>
      have hdecoded : decLoop f fs (zeroFields fs) (bodyEnc vf) = some vf := by
        obtain ⟨f2, -, heq⟩ := decLoop_body f fs fs vf (zeroFields fs) [] hvf
          hg.1 hg.2 (fun _ _ h => h)
          (fun num ty h => getV_zeroFields fs num ty h)
          (by
            simp only [List.append_nil]
            rw [hbody] at hfuel
            omega)
        rw [List.append_nil] at heq
        rw [heq, decLoop_nil, setAll_zeroFields fs vf hvf hg.2]
      simp only [decTop, zeroVal, hbody, hdecoded]
  | tmap kt vt =>
    obtain ⟨es, rfl, hes, hu⟩ := wf_map_elim kt vt v hwf
    simp only [good, Bool.and_eq_true] at hg
    have hbody : payloadEnc (Value.vmap es) = entriesEnc 1 es := by
      rw [hpe]
      simp [payloadCore]
    have hdm := decMapLoop_enc fuel kt vt es .nil hg.1 hg.2 hes
      (by simpa [appendEntries] using hu)
      (by rw [hbody] at hfuel; omega)
    rw [show appendEntries .nil es = es from rfl] at hdm
    simp only [decTop, zeroVal, curEntries, hbody, hdm]
  | tptr te =>
    simp only [good, Bool.and_eq_true, Bool.not_eq_true'] at hg
    obtain ⟨hgte, hni⟩ := hg
    rcases wf_ptr_elim te v hwf with rfl | ⟨w, rfl, hw⟩
    · simp [isZero] at hnz
    · have hnzw : isZero w = false := by simpa [topOk] using htop
      have htopw : topOk w = true := by
        cases te with
        | tptr te2 => simp [inlinedTy] at hni
        | tmap kt vt => simp [inlinedTy] at hni
        | tbool => cases w <;> simp_all [wf, topOk]
        | tuint => cases w <;> simp_all [wf, topOk]
        | tint => cases w <;> simp_all [wf, topOk]
        | tfix32 => cases w <;> simp_all [wf, topOk]
        | tfix64 => cases w <;> simp_all [wf, topOk]
        | tbytes => cases w <;> simp_all [wf, topOk]
        | tarray n => cases w <;> simp_all [wf, topOk]
        | tstruct fs => cases w <;> simp_all [wf, topOk]
      have hbody : payloadEnc (Value.vsome w) = payloadEnc w := by
        rw [hpe]
        simp [payloadCore]
      have hrec := decTop_enc fuel te w hgte hw hnzw htopw
        (by rw [hbody] at hfuel; omega)
      simp only [decTop, zeroVal, curPointee, hbody, hrec]
      rfl
termination_by sizeOf t

/-- Claim C1: for every value of a supported well-formed shape — with the
one top-level exception the specification itself carves out, a pointer
whose pointee is the zero value (it marshals to zero bytes, and
unmarshalling zero bytes is the documented no-op) — unmarshalling the
bytes produced by `Marshal` into a freshly zero-valued target of the same
shape succeeds and reproduces the value exactly (round trip). -/
theorem claim_C1 (te : Ty) (v : Value) (hg : good te = true)
    (hwf : wf te v = true) (htop : topOk v = true) :
    Unmarshal (Marshal v) (.tptr te) (.vsome (zeroVal te)) =
      .ok (.tptr te) (.vsome v) := by
  by_cases hz : isZero v = true
  · have hveq : v = zeroVal te := eq_zeroVal_of_isZero te v hwf hz
    have hmz : Marshal v = [] := by
      simp [Marshal, payloadEnc, hz]
    rw [hmz, hveq]
    rfl
  · have hnz : isZero v = false := by simpa using hz
    have hne : payloadEnc v ≠ [] := payloadEnc_ne_nil te v hg hwf hnz htop
    have hemp : (payloadEnc v).isEmpty = false := by
      cases hM : payloadEnc v with
      | nil => exact absurd hM hne
      | cons a r => rfl
    have hdec := decTop_enc ((payloadEnc v).length + 1) te v hg hwf hnz htop
      (by omega)
    simp only [Marshal, Unmarshal, hemp, Bool.false_eq_true, if_false]
    rw [hdec]
    simp

theorem claim_C1_witness :
    good .tuint = true ∧ wf .tuint (.vuint 300) = true ∧
      topOk (.vuint 300) = true ∧
      Unmarshal (Marshal (.vuint 300)) (.tptr .tuint)
          (.vsome (zeroVal .tuint)) =
        .ok (.tptr .tuint) (.vsome (.vuint 300)) :=
  ⟨by simp [good], by simp [wf], by simp [topOk],
    claim_C1 .tuint (.vuint 300) (by simp [good]) (by simp [wf])
      (by simp [topOk])⟩

/-- Claim C5: for every target value, calling `Unmarshal` with a
zero-length buffer returns success as a no-op and leaves the target at its
initial value, unchanged (the empty-buffer return precedes even the
pointer check). -/
theorem claim_C5 (t : Ty) (v : Value) : Unmarshal [] t v = .ok t v := rfl

/-- Claim C6, counterexample to the claim as stated: with a non-pointer
target and an empty buffer, `Unmarshal` returns success (the empty-buffer
no-op return precedes the pointer check), so it is not the case that every
buffer leads to a fatal error. -/
theorem claim_C6_counterexample :
    Unmarshal [] .tbool (.vbool true) = .ok .tbool (.vbool true) := rfl

/-- Claim C6, as amended: for every NON-EMPTY buffer, `Unmarshal` with a
non-pointer target aborts with a fatal, non-recoverable error (the
caller-contract violation), never returning success or a recoverable data
error. -/
theorem claim_C6 (b : List Nat) (t : Ty) (v : Value) (hb : b ≠ [])
    (ht : ∀ te, t ≠ .tptr te) : Unmarshal b t v = .fatal := by
  have hne : b.isEmpty = false := by
    cases b with
    | nil => exact absurd rfl hb
    | cons x r => rfl
  cases t with
  | tptr te => exact absurd rfl (ht te)
  | tbool => simp [Unmarshal, hne]
  | tuint => simp [Unmarshal, hne]
  | tint => simp [Unmarshal, hne]
  | tfix32 => simp [Unmarshal, hne]
  | tfix64 => simp [Unmarshal, hne]
  | tbytes => simp [Unmarshal, hne]
  | tarray n => simp [Unmarshal, hne]
  | tstruct fs => simp [Unmarshal, hne]
  | tmap kt vt => simp [Unmarshal, hne]

theorem claim_C6_witness :
    ([0] ≠ ([] : List Nat)) ∧ Unmarshal [0] .tbool (.vbool true) = .fatal :=
  ⟨by simp,
    claim_C6 [0] .tbool (.vbool true) (by simp) (fun te h => Ty.noConfusion h)⟩

/-- Claim C4: for every non-empty buffer and valid (non-nil) pointer
target, `Unmarshal` returns an error when decoding consumes fewer bytes
than the buffer length (trailing bytes), and returns success only when the
decode succeeds and all input bytes are consumed. -/
theorem claim_C4 (te : Ty) (w : Value) (b : List Nat) (hb : b ≠ []) :
    (∀ w2 n, decTop (b.length + 1) te w b = some (w2, n) → n < b.length →
        Unmarshal b (.tptr te) (.vsome w) = .err) ∧
      ∀ t2 v2, Unmarshal b (.tptr te) (.vsome w) = .ok t2 v2 →
        ∃ w2 n, decTop (b.length + 1) te w b = some (w2, n) ∧ b.length ≤ n ∧
          t2 = .tptr te ∧ v2 = .vsome w2 := by
  have hne : b.isEmpty = false := by
    cases b with
    | nil => exact absurd rfl hb
    | cons x r => rfl
  constructor
  · intro w2 n hdec hn
    simp [Unmarshal, hne, hdec, hn]
  · intro t2 v2 hok
    simp only [Unmarshal, hne, Bool.false_eq_true, if_false] at hok
    cases hd : decTop (b.length + 1) te w b with
    | none =>
      rw [hd] at hok
      cases hok
    | some p =>
      obtain ⟨w2, n⟩ := p
      rw [hd] at hok
      by_cases hlt : n < b.length
      · simp [hlt] at hok
      · simp only [hlt, if_false] at hok
        cases hok
        exact ⟨w2, n, rfl, by omega, rfl, rfl⟩

theorem claim_C4_witness :
    ([5, 7] ≠ ([] : List Nat)) ∧
      Unmarshal [5, 7] (.tptr .tuint) (.vsome (.vuint 0)) = .err := by
  refine ⟨by simp, ?_⟩
  apply (claim_C4 .tuint (.vuint 0) [5, 7] (by simp)).1 (.vuint 5) 1
  · simp [decTop, decField, varintDec]
  · decide

end Wire

end Proto
